import Mathlib

/-!
Verification of the td_v2 ingestion scripts (art_coin.py, art_dat.py,
fs_etf.py, augment_dat_with_mnav.py) against their natural-language
specification.

Modelling conventions, shared by all namespaces below:

* Calendar dates are modelled as `Nat` (days since 1970-01-01); the ISO
  string "1970-01-01" used as the earliest-supported sentinel therefore
  becomes `0`, and "max saved date + 1 day" becomes `Nat.succ`.  The
  scripts compare ISO date strings lexicographically, which agrees with
  the chronological (hence numeric) order.
* 64-bit floats are modelled as exact rationals `ℚ`; where IEEE special
  values matter (the pandas path of augment_dat_with_mnav.py) floats are
  modelled as a tagged type with `nan` / infinity constructors.
* Python dicts keyed by strings or pairs are modelled as association
  lists whose update (`rowSet` / `tableSet`) replaces the binding in
  place, exactly like a dict assignment.
-/

namespace ArtCoin

/-- One row of the wide table: entity (token) name to value.
Models the Python dict `{TOKEN: value, ...}` of art_coin.py. -/
abbrev RowMap := List (String × ℚ)

/-- Table key `(date, metric)`; dates are days since 1970-01-01. -/
abbrev Key := Nat × String

/-- The in-memory table `{(date, metric): {TOKEN: value}}` of art_coin.py. -/
abbrev Table := List (Key × RowMap)

/-- Dict lookup on a row map (first binding wins; well-formed rows bind
each token at most once). -/
def rowGet (r : RowMap) (t : String) : Option ℚ :=
  match r with
  | [] => none
  | (t', v) :: rest => if t' = t then some v else rowGet rest t

/-- Dict assignment `row[t] = v` on a row map. -/
def rowSet (r : RowMap) (t : String) (v : ℚ) : RowMap :=
  match r with
  | [] => [(t, v)]
  | (t', v') :: rest => if t' = t then (t, v) :: rest else (t', v') :: rowSet rest t v

/-- Dict lookup `table.get(key)`. -/
def tableGet (tab : Table) (k : Key) : Option RowMap :=
  match tab with
  | [] => none
  | (k', r) :: rest => if k' = k then some r else tableGet rest k

/-- Dict assignment `table[key] = row`. -/
def tableSet (tab : Table) (k : Key) (r : RowMap) : Table :=
  match tab with
  | [] => [(k, r)]
  | (k', r') :: rest => if k' = k then (k, r) :: rest else (k', r') :: tableSet rest k r

/-- Value of one cell of the table (absent = `none`). -/
def lookupCell (tab : Table) (d : Nat) (m t : String) : Option ℚ :=
  match tableGet tab (d, m) with
  | none => none
  | some r => rowGet r t

/-- The merge step of art_coin.run:
`rowmap = table.get(key, {}); rowmap[tok] = val; table[key] = rowmap`. -/
def upsert (tab : Table) (d : Nat) (m t : String) (v : ℚ) : Table :=
  tableSet tab (d, m) (rowSet ((tableGet tab (d, m)).getD []) t v)

/-- art_coin.metric_max_date: max date over the keys carrying `metric`,
`none` when the metric has no rows. -/
def metric_max_date (tab : Table) (metric : String) : Option Nat :=
  (tab.filterMap (fun kv => if kv.1.2 = metric then some kv.1.1 else none)).max?

/-- The earliest-supported sentinel date, "1970-01-01" in the script. -/
def epochDate : Nat := 0

/-- `has_any` of art_coin.run: does token `t` have at least one stored
value under `metric`?  (Stored values are always floats, so the
`isinstance(row[t], float)` test of the source is satisfied by
presence.) -/
def token_has_any (tab : Table) (metric t : String) : Bool :=
  tab.any (fun kv => kv.1.2 = metric && (rowGet kv.2 t).isSome)

/-- `start_default` of art_coin.run: 1970-01-01 when the metric has no
rows, else max saved date + 1 day. -/
def start_default (tab : Table) (metric : String) : Nat :=
  match metric_max_date tab metric with
  | none => epochDate
  | some dmax => dmax + 1

/-- `tokens_missing` of art_coin.run: requested tokens with no stored
value under `metric`. -/
def tokens_missing (tab : Table) (metric : String) (tokens : List String) : List String :=
  tokens.filter (fun t => ! token_has_any tab metric t)

/-- `effective_start` of art_coin.run: `start_default`, overridden back
to 1970-01-01 when the metric already exists but some requested token
has no history yet. -/
def effective_start (tab : Table) (metric : String) (tokens : List String) : Nat :=
  if (metric_max_date tab metric).isSome ∧ tokens_missing tab metric tokens ≠ [] then
    epochDate
  else
    start_default tab metric

/-- The `(start, end)` range passed by art_coin.run to
`fetch_metric_for_tokens`: computed start and always `today` as end. -/
def resume_range (tab : Table) (metric : String) (tokens : List String) (today : Nat) :
    Nat × Nat :=
  (effective_start tab metric tokens, today)

end ArtCoin

/-- C1: ResumePolicy start-date computation.  For every table and series
(metric): with no existing rows the start is the 1970-01-01 sentinel;
with rows and every requested token having at least one stored value the
start is max saved date + 1 day; with rows but some requested token
lacking any value the start is overridden to the sentinel for the whole
batch; and the end date is always today. -/
theorem C1_resume_policy (tab : ArtCoin.Table) (metric : String)
    (tokens : List String) (today : Nat) :
    (ArtCoin.metric_max_date tab metric = none →
      ArtCoin.effective_start tab metric tokens = ArtCoin.epochDate) ∧
    (∀ dmax, ArtCoin.metric_max_date tab metric = some dmax →
      (∀ t ∈ tokens, ArtCoin.token_has_any tab metric t = true) →
      ArtCoin.effective_start tab metric tokens = dmax + 1) ∧
    (∀ dmax, ArtCoin.metric_max_date tab metric = some dmax →
      (∃ t ∈ tokens, ¬ ArtCoin.token_has_any tab metric t = true) →
      ArtCoin.effective_start tab metric tokens = ArtCoin.epochDate) ∧
    (ArtCoin.resume_range tab metric tokens today).2 = today := by
  refine ⟨?_, ?_, ?_, rfl⟩
  · intro h
    unfold ArtCoin.effective_start ArtCoin.start_default
    rw [h]
    simp
  · intro dmax h hall
    unfold ArtCoin.effective_start ArtCoin.start_default
    rw [h]
    have hmiss : ArtCoin.tokens_missing tab metric tokens = [] := by
      unfold ArtCoin.tokens_missing
      rw [List.filter_eq_nil_iff]
      intro t ht
      simp [hall t ht]
    simp [hmiss]
  · intro dmax h ⟨t, ht, hnot⟩
    unfold ArtCoin.effective_start
    have hmiss : ArtCoin.tokens_missing tab metric tokens ≠ [] := by
      unfold ArtCoin.tokens_missing
      intro hc
      rw [List.filter_eq_nil_iff] at hc
      exact absurd (by simpa using hc t ht) hnot
    simp [h, hmiss]

/-- Witness for C1 at a concrete table: metric "price" has max date 5
and token "ETH" has history, so the computed start is 6 (= 5 + 1). -/
theorem C1_resume_policy_witness :
    ArtCoin.effective_start [((5, "price"), [("ETH", (100 : ℚ))])] "price" ["ETH"] = 6 :=
  (C1_resume_policy [((5, "price"), [("ETH", (100 : ℚ))])] "price" ["ETH"] 9).2.1 5
    (by decide) (by decide)

namespace ArtCoin

/-- A fetched payload, as returned by `fetch_metric_for_tokens`:
token → list of `(date, value)` points. -/
abbrev Payload := List (String × List (Nat × ℚ))

/-- The merge loop of art_coin.run: for every token and every point,
upsert the value into the table at `(date, metric)`. -/
def mergePayload (tab : Table) (metric : String) (payload : Payload) : Table :=
  payload.foldl
    (fun t p => p.2.foldl (fun t2 pt => upsert t2 pt.1 metric p.1 pt.2) t) tab

/-- Does the payload supply a value for `(date, token)`? -/
def supplies (payload : Payload) (d : Nat) (tok : String) : Bool :=
  payload.any (fun p => p.1 = tok && p.2.any (fun pt => pt.1 = d))

theorem rowGet_rowSet_self (r : RowMap) (t : String) (v : ℚ) :
    rowGet (rowSet r t v) t = some v := by
  induction r with
  | nil => simp [rowGet, rowSet]
  | cons hd tl ih =>
    by_cases h : hd.1 = t
    · simp [rowSet, h, rowGet]
    · simp [rowSet, h, rowGet, ih]

theorem rowGet_rowSet_ne (r : RowMap) (t t' : String) (v : ℚ) (h : t ≠ t') :
    rowGet (rowSet r t v) t' = rowGet r t' := by
  induction r with
  | nil => simp [rowGet, rowSet, h]
  | cons hd tl ih =>
    by_cases h1 : hd.1 = t
    · simp [rowSet, h1, rowGet, h, h1.symm ▸ h]
    · simp only [rowSet, h1, if_false, rowGet]
      by_cases h2 : hd.1 = t'
      · simp [h2]
      · simp [h2, ih]

theorem tableGet_tableSet_self (tab : Table) (k : Key) (r : RowMap) :
    tableGet (tableSet tab k r) k = some r := by
  induction tab with
  | nil => simp [tableGet, tableSet]
  | cons hd tl ih =>
    by_cases h : hd.1 = k
    · simp [tableSet, h, tableGet]
    · simp [tableSet, h, tableGet, ih]

theorem tableGet_tableSet_ne (tab : Table) (k k' : Key) (r : RowMap) (h : k ≠ k') :
    tableGet (tableSet tab k r) k' = tableGet tab k' := by
  induction tab with
  | nil => simp [tableGet, tableSet, h]
  | cons hd tl ih =>
    by_cases h1 : hd.1 = k
    · simp [tableSet, h1, tableGet, h, h1.symm ▸ h]
    · simp only [tableSet, h1, if_false, tableGet]
      by_cases h2 : hd.1 = k'
      · simp [h2]
      · simp [h2, ih]

/-- `supplies` holds exactly when some token entry carries a point at
the date. -/
theorem supplies_iff (payload : Payload) (d : Nat) (tok : String) :
    supplies payload d tok = true ↔ ∃ p ∈ payload, p.1 = tok ∧ ∃ pt ∈ p.2, pt.1 = d := by
  simp [supplies]

/-- An upsert changes exactly the one cell it names. -/
theorem lookupCell_upsert_other (tab : Table) (d : Nat) (m t : String) (v : ℚ)
    (d' : Nat) (m' t' : String) (h : ¬ (d' = d ∧ m' = m ∧ t' = t)) :
    lookupCell (upsert tab d m t v) d' m' t' = lookupCell tab d' m' t' := by
  by_cases hk : ((d, m) : Key) = (d', m')
  · have hd : d = d' := congrArg Prod.fst hk
    have hm : m = m' := congrArg Prod.snd hk
    subst hd
    subst hm
    have htt : t ≠ t' := fun hc => h ⟨rfl, rfl, hc.symm⟩
    unfold lookupCell upsert
    rw [tableGet_tableSet_self]
    cases hg : tableGet tab (d, m) with
    | none => simp [rowGet_rowSet_ne _ _ _ _ htt, rowGet, htt]
    | some r => simp [rowGet_rowSet_ne _ _ _ _ htt]
  · unfold lookupCell upsert
    rw [tableGet_tableSet_ne tab _ _ _ hk]

/-- Folding the points of one token entry leaves every cell untouched
unless the entry names that cell's token and supplies its date. -/
theorem lookupCell_foldl_points (tab : Table) (metric tokName : String)
    (pts : List (Nat × ℚ)) (d : Nat) (m' tok : String)
    (h : ¬ (m' = metric ∧ tok = tokName ∧ ∃ pt ∈ pts, pt.1 = d)) :
    lookupCell (pts.foldl (fun t2 pt => upsert t2 pt.1 metric tokName pt.2) tab) d m' tok =
      lookupCell tab d m' tok := by
  induction pts generalizing tab with
  | nil => rfl
  | cons pt rest ih =>
    have hother : ¬ (d = pt.1 ∧ m' = metric ∧ tok = tokName) := by
      rintro ⟨a, b, c⟩
      exact h ⟨b, c, pt, List.mem_cons_self _ _, a.symm⟩
    have hrest : ¬ (m' = metric ∧ tok = tokName ∧ ∃ q ∈ rest, q.1 = d) := by
      rintro ⟨a, b, q, hq, c⟩
      exact h ⟨a, b, q, List.mem_cons_of_mem _ hq, c⟩
    rw [List.foldl_cons, ih _ hrest]
    exact lookupCell_upsert_other tab pt.1 metric tokName pt.2 d m' tok hother

/-- Merging a payload that does not supply a value for `(d, tok)` under
the merged metric leaves the cell `(d, m', tok)` unchanged. -/
theorem lookupCell_mergePayload_not_supplied (tab : Table) (metric : String)
    (payload : Payload) (d : Nat) (m' tok : String)
    (h : ¬ (m' = metric ∧ supplies payload d tok = true)) :
    lookupCell (mergePayload tab metric payload) d m' tok = lookupCell tab d m' tok := by
  induction payload generalizing tab with
  | nil => rfl
  | cons p rest ih =>
    have hrest : ¬ (m' = metric ∧ supplies rest d tok = true) := by
      rintro ⟨a, b⟩
      obtain ⟨q, hq, hvals⟩ := (supplies_iff rest d tok).mp b
      exact h ⟨a, (supplies_iff (p :: rest) d tok).mpr ⟨q, List.mem_cons_of_mem _ hq, hvals⟩⟩
    have hinner : ¬ (m' = metric ∧ tok = p.1 ∧ ∃ pt ∈ p.2, pt.1 = d) := by
      rintro ⟨a, b, hex⟩
      exact h ⟨a, (supplies_iff (p :: rest) d tok).mpr ⟨p, List.mem_cons_self _ _, b.symm, hex⟩⟩
    have key : mergePayload tab metric (p :: rest) =
        mergePayload (p.2.foldl (fun t2 pt => upsert t2 pt.1 metric p.1 pt.2) tab) metric rest :=
      rfl
    rw [key, ih _ hrest, lookupCell_foldl_points tab metric p.1 p.2 d m' tok hinner]

end ArtCoin

/-- C8: merge additivity.  After merging payload A, merging payload B
removes or changes no `(date, series, entity)` value except at keys for
which B itself supplies a new value: at every key B does not supply, the
cell after merging B equals the cell after merging A. -/
theorem C8_merge_additivity (tab : ArtCoin.Table) (metric : String)
    (A B : ArtCoin.Payload) (d : Nat) (m' tok : String)
    (h : ¬ (m' = metric ∧ ArtCoin.supplies B d tok = true)) :
    ArtCoin.lookupCell (ArtCoin.mergePayload (ArtCoin.mergePayload tab metric A) metric B)
        d m' tok =
      ArtCoin.lookupCell (ArtCoin.mergePayload tab metric A) d m' tok :=
  ArtCoin.lookupCell_mergePayload_not_supplied _ metric B d m' tok h

/-- Witness for C8: payload B touches only ("ETH", date 1), so the value
BTC had at date 0 after merging A survives merging B. -/
theorem C8_merge_additivity_witness :
    ArtCoin.lookupCell
        (ArtCoin.mergePayload
          (ArtCoin.mergePayload [] "price" [("BTC", [(0, (40000 : ℚ))])])
          "price" [("ETH", [(1, (110 : ℚ))])])
        0 "price" "BTC" =
      ArtCoin.lookupCell
        (ArtCoin.mergePayload [] "price" [("BTC", [(0, (40000 : ℚ))])]) 0 "price" "BTC" :=
  C8_merge_additivity [] "price" [("BTC", [(0, (40000 : ℚ))])] [("ETH", [(1, (110 : ℚ))])]
    0 "price" "BTC" (by decide)

namespace ArtCoin

/-- The per-metric loop of art_coin.run, with the external fetch as an
opaque collaborator that either returns a payload or raises.  The source
loop has no per-metric exception handling: an exception propagates out
of `run` (caught only by the top-level handler, which exits), so the
model threads `Except` through the whole loop.  `write_table` runs only
after the loop, i.e. only in the `Except.ok` case. -/
def run_metrics (fetch : String → Nat → Nat → Except String Payload)
    (tokens : List String) (today : Nat) :
    List String → Table → Except String Table
  | [], tab => .ok tab
  | m :: rest, tab =>
    match fetch m (effective_start tab m tokens) today with
    | .error e => .error e
    | .ok payload => run_metrics fetch tokens today rest (mergePayload tab m payload)

/-- A concrete fetch collaborator that succeeds for "price" and raises
for every other metric, used to exhibit the fail-fast behaviour. -/
def fetchCex : String → Nat → Nat → Except String Payload :=
  fun m _ _ => if m = "price" then .ok [("ETH", [(0, (100 : ℚ))])] else .error "transport"

end ArtCoin

/-- C5 counterexample: with two requested metrics where the first fetch
succeeds and the second raises, the run aborts with the error — the
already-obtained data of the successful series is not written (the
result is not `ok`, and `write_table` runs only on `ok`).  The claim
predicted that the failure of one series leaves the other's processing
and write intact. -/
theorem C5_failure_isolation_cex :
    ArtCoin.fetchCex "price" (ArtCoin.effective_start [] "price" ["ETH"]) 9 =
        Except.ok [("ETH", [(0, (100 : ℚ))])] ∧
      ArtCoin.run_metrics ArtCoin.fetchCex ["ETH"] 9 ["price", "mc"] [] =
        Except.error "transport" := by
  constructor
  · rfl
  · rfl

/-- C5 amended: the orchestrator is fail-fast, not isolating.  A fetch
error on the first unprocessed series makes the whole run return that
error, so no later series is processed and the table is not written. -/
theorem C5_fail_fast (fetch : String → Nat → Nat → Except String ArtCoin.Payload)
    (tokens : List String) (today : Nat) (m : String) (rest : List String)
    (tab : ArtCoin.Table) (e : String)
    (h : fetch m (ArtCoin.effective_start tab m tokens) today = Except.error e) :
    ArtCoin.run_metrics fetch tokens today (m :: rest) tab = Except.error e := by
  unfold ArtCoin.run_metrics
  rw [h]

/-- Witness for the amended C5 theorem: the second metric's fetch raises
and the whole run returns that error. -/
theorem C5_fail_fast_witness :
    ArtCoin.run_metrics ArtCoin.fetchCex ["ETH"] 9 ["mc"] [] = Except.error "transport" :=
  C5_fail_fast ArtCoin.fetchCex ["ETH"] 9 "mc" [] [] "transport" rfl

namespace ArtDat

/-- ASCII lowercasing of one character, as `str.lower` acts on the
ASCII keys involved here. -/
def lowerChar (c : Char) : Char :=
  if 'A' ≤ c && c ≤ 'Z' then Char.ofNat (c.toNat + 32) else c

/-- art_dat.norm: lowercase, then keep only the characters matching the
character class `[a-z0-9]` (all others are stripped). -/
def norm (s : String) : String :=
  String.mk ((s.toList.map lowerChar).filter
    (fun c => ('a' ≤ c && c ≤ 'z') || ('0' ≤ c && c ≤ '9')))

/-- Lookup in the dict comprehension `{norm(k): k for k in available}`:
the last key with the queried normal form wins, exactly as later dict
entries overwrite earlier ones. -/
def availNormLookup (avail : List String) (q : String) : Option String :=
  (avail.filter (fun k => norm k = q)).getLast?

/-- art_dat.main.choose_key_from_candidates.  `avail` is the enumerated
key vocabulary for the symbol (empty when enumeration failed or was not
permitted); `prior` is the persisted prior choice (`none` models both a
missing mapping entry and JSON null; the Python truthiness test also
rejects the empty string). -/
def choose_key_from_candidates (avail : List String) (candidates : List String)
    (prior : Option String) : Option String :=
  let fromPrior : Option String :=
    match prior with
    | none => none
    | some p => if p = "" then none else availNormLookup avail (norm p)
  match fromPrior with
  | some k => some k
  | none =>
    match candidates.findSome? (fun c => availNormLookup avail (norm c)) with
    | some k => some k
    | none => candidates.head?

end ArtDat

/-- C3 counterexample: availability is known and non-empty (`["FOO"]`),
the sole candidate "BAR" does not normalize to an available key and
there is no prior choice, yet resolve returns `some "BAR"` (the
optimistic first-candidate fall-back) instead of the `none` the claim
requires. -/
theorem C3_null_case_cex :
    (["FOO"] : List String) ≠ [] ∧
      ArtDat.availNormLookup ["FOO"] (ArtDat.norm "BAR") = none ∧
      ArtDat.choose_key_from_candidates ["FOO"] ["BAR"] none = some "BAR" := by
  refine ⟨by decide, by decide, by decide⟩

/-- C3 amended: resolve returns null only when, in addition to the prior
choice and every candidate failing to normalize to an available key, the
candidate list itself is empty; whenever neither the prior choice nor
any candidate matches, resolve returns the first candidate (if any)
regardless of whether availability is known and non-empty. -/
theorem C3_null_case_amended (avail candidates : List String) (prior : Option String)
    (hprior : ∀ p, prior = some p → p = "" ∨ ArtDat.availNormLookup avail (ArtDat.norm p) = none)
    (hcand : ∀ c ∈ candidates, ArtDat.availNormLookup avail (ArtDat.norm c) = none) :
    ArtDat.choose_key_from_candidates avail candidates prior = candidates.head? := by
  unfold ArtDat.choose_key_from_candidates
  have hfind : candidates.findSome? (fun c => ArtDat.availNormLookup avail (ArtDat.norm c)) =
      none := by
    rw [List.findSome?_eq_none_iff]
    exact hcand
  cases prior with
  | none => simp [hfind]
  | some p =>
    rcases hprior p rfl with hp | hp
    · simp [hp, hfind]
    · by_cases hemp : p = ""
      · simp [hemp, hfind]
      · simp [hemp, hp, hfind]

/-- Witness for the amended C3 theorem: no candidates at all and no
prior, so resolve returns null. -/
theorem C3_null_case_amended_witness :
    ArtDat.choose_key_from_candidates ["FOO"] [] none = none :=
  C3_null_case_amended ["FOO"] [] none (fun p hp => by simp at hp) (fun c hc => by simp at hc)

/-- C9: key stability.  If the prior choice K is non-empty and still
normalizes to a member of the entity's available-key set, resolve
returns an available spelling of K (the key K modulo normalization),
regardless of the candidate list — in particular even when a
higher-priority candidate is also available. -/
theorem C9_key_stability (avail candidates : List String) (K : String)
    (hK : K ≠ "") (hmem : ∃ k ∈ avail, ArtDat.norm k = ArtDat.norm K) :
    ∃ k2, ArtDat.choose_key_from_candidates avail candidates (some K) = some k2 ∧
      k2 ∈ avail ∧ ArtDat.norm k2 = ArtDat.norm K := by
  obtain ⟨k, hk, hnk⟩ := hmem
  have hfil : k ∈ avail.filter (fun k' => ArtDat.norm k' = ArtDat.norm K) :=
    List.mem_filter.mpr ⟨hk, by simp [hnk]⟩
  have hne : avail.filter (fun k' => ArtDat.norm k' = ArtDat.norm K) ≠ [] :=
    List.ne_nil_of_mem hfil
  obtain ⟨k2, hk2⟩ := Option.isSome_iff_exists.mp (List.getLast?_isSome.mpr hne)
  have hk2mem : k2 ∈ avail.filter (fun k' => ArtDat.norm k' = ArtDat.norm K) := by
    obtain ⟨hne2, heq⟩ := List.mem_getLast?_eq_getLast (Option.mem_def.mpr hk2)
    exact heq ▸ List.getLast_mem hne2
  obtain ⟨hk2avail, hk2norm⟩ := List.mem_filter.mp hk2mem
  refine ⟨k2, ?_, hk2avail, by simpa using hk2norm⟩
  have hlook : ArtDat.availNormLookup avail (ArtDat.norm K) = some k2 := hk2
  simp only [ArtDat.choose_key_from_candidates]
  rw [if_neg hK, hlook]

/-- Witness for C9: prior choice "mc-nav" normalizes to available key
"MC_NAV", which is returned even though the higher-priority candidate
"M_NAV" is also available. -/
theorem C9_key_stability_witness :
    ∃ k2, ArtDat.choose_key_from_candidates ["M_NAV", "MC_NAV"] ["M_NAV", "MC_NAV"]
        (some "mc-nav") = some k2 ∧
      k2 ∈ ["M_NAV", "MC_NAV"] ∧ ArtDat.norm k2 = ArtDat.norm "mc-nav" :=
  C9_key_stability ["M_NAV", "MC_NAV"] ["M_NAV", "MC_NAV"] "mc-nav" (by decide)
    ⟨"MC_NAV", by decide, by decide⟩

namespace ArtDat

/-- art_dat's wide table has the same dict representation as
art_coin's: `{(date, metric_or_label): {SYMBOL: value}}`. -/
abbrev Table := ArtCoin.Table

/-- art_dat.main.get_cell: `None` when the key is falsy (missing or
empty), else the stored float for `(date, key, sym)` if present. -/
def get_cell (tab : Table) (d : Nat) (key : Option String) (sym : String) : Option ℚ :=
  match key with
  | none => none
  | some k => if k = "" then none else ArtCoin.lookupCell tab d k sym

/-- The last non-absent value of a scan, `none` if none was seen yet. -/
def last_obs (l : List (Option ℚ)) : Option ℚ :=
  l.foldl (fun acc v => if v.isSome then v else acc) none

/-- The forward-fill loop of art_dat.main: `last_val` starts as `None`;
at each date the current value (if any) replaces `last_val`, and
`last_val` is recorded for that date. -/
def ffill_go (last : Option ℚ) : List (Option ℚ) → List (Option ℚ)
  | [] => []
  | v :: rest =>
    let last2 := if v.isSome then v else last
    last2 :: ffill_go last2 rest

/-- `ffilled_shares` of art_dat.main for one symbol, viewed positionally
along the ascending `all_dates` list. -/
def ffilled_shares (tab : Table) (skey : Option String) (sym : String)
    (dates : List Nat) : List (Option ℚ) :=
  ffill_go none (dates.map (fun d => get_cell tab d skey sym))

theorem ffill_go_get? (vals : List (Option ℚ)) (last : Option ℚ) (i : Nat) :
    (ffill_go last vals).get? i =
      if i < vals.length then
        some ((vals.take (i + 1)).foldl (fun acc v => if v.isSome then v else acc) last)
      else none := by
  induction vals generalizing last i with
  | nil => simp [ffill_go]
  | cons v rest ih =>
    cases i with
    | zero => simp [ffill_go]
    | succ j =>
      simp only [ffill_go, List.get?_cons_succ, ih, List.length_cons, List.take_succ_cons,
        List.foldl_cons]
      by_cases hj : j < rest.length
      · rw [if_pos hj, if_pos (by omega : j + 1 < rest.length + 1)]
      · rw [if_neg hj, if_neg (by omega : ¬ j + 1 < rest.length + 1)]

end ArtDat

/-- C7: forward-fill correctness.  Scanning dates in ascending order,
the value recorded at position `i` is the last non-absent base value
among positions `0..i` (so values are carried forward across gaps and
nothing is carried before the first occurrence), and the spec's example
`[None, 10, None, None, 12] → [None, 10, 10, 10, 12]` holds. -/
theorem C7_forward_fill (tab : ArtDat.Table) (skey : Option String) (sym : String)
    (dates : List Nat) (i : Nat) :
    (ArtDat.ffilled_shares tab skey sym dates).get? i =
      (if i < dates.length then
        some (ArtDat.last_obs
          ((dates.take (i + 1)).map (fun d => ArtDat.get_cell tab d skey sym)))
      else none) ∧
    ArtDat.ffill_go none [none, some (10 : ℚ), none, none, some 12] =
      [none, some 10, some 10, some 10, some 12] := by
  constructor
  · rw [ArtDat.ffilled_shares, ArtDat.ffill_go_get?]
    simp [ArtDat.last_obs, List.map_take]
  · rfl

namespace ArtDat

/-- The mNAV guard and combination of art_dat.main:
`if (price is not None) and (shares is not None) and (nav not in (None, 0.0)):
  row[sym] = (price * shares) / nav`.
`shares` is the forward-filled dict value for `(date, sym)`. -/
def mnav_cell (tab : Table) (pkey nkey : Option String) (shares : Option ℚ)
    (d : Nat) (sym : String) : Option ℚ :=
  match get_cell tab d pkey sym, shares, get_cell tab d nkey sym with
  | some price, some sh, some nav => if nav = 0 then none else some ((price * sh) / nav)
  | _, _, _ => none

/-- The per-date mNAV row loop of art_dat.main: starting from the empty
row, each symbol whose guard passes contributes its cell. -/
def mnav_row (tab : Table) (syms : List String) (pkey nkey : String → Option String)
    (sh : String → Option ℚ) (d : Nat) : ArtCoin.RowMap :=
  syms.foldl
    (fun row sym =>
      match mnav_cell tab (pkey sym) (nkey sym) (sh sym) d sym with
      | some v => ArtCoin.rowSet row sym v
      | none => row) []

theorem mnav_fold_untouched (tab : Table) (pkey nkey : String → Option String)
    (sh : String → Option ℚ) (d : Nat) (syms : List String) (row : ArtCoin.RowMap)
    (sym : String) (h : sym ∉ syms) :
    ArtCoin.rowGet
      (syms.foldl
        (fun row2 s =>
          match mnav_cell tab (pkey s) (nkey s) (sh s) d s with
          | some v => ArtCoin.rowSet row2 s v
          | none => row2) row) sym = ArtCoin.rowGet row sym := by
  induction syms generalizing row with
  | nil => rfl
  | cons s rest ih =>
    have hs : s ≠ sym := fun hc => h (hc ▸ List.mem_cons_self _ _)
    have hrest : sym ∉ rest := fun hc => h (List.mem_cons_of_mem _ hc)
    rw [List.foldl_cons, ih _ hrest]
    cases mnav_cell tab (pkey s) (nkey s) (sh s) d s with
    | none => rfl
    | some v => exact ArtCoin.rowGet_rowSet_ne row s sym v hs

theorem mnav_fold_get (tab : Table) (pkey nkey : String → Option String)
    (sh : String → Option ℚ) (d : Nat) (syms : List String) (row : ArtCoin.RowMap)
    (sym : String) (hnd : syms.Nodup) (hmem : sym ∈ syms) :
    ArtCoin.rowGet
      (syms.foldl
        (fun row2 s =>
          match mnav_cell tab (pkey s) (nkey s) (sh s) d s with
          | some v => ArtCoin.rowSet row2 s v
          | none => row2) row) sym =
      (match mnav_cell tab (pkey sym) (nkey sym) (sh sym) d sym with
       | some v => some v
       | none => ArtCoin.rowGet row sym) := by
  induction syms generalizing row with
  | nil => cases hmem
  | cons s rest ih =>
    have hnds : s ∉ rest := (List.nodup_cons.mp hnd).1
    have hnd2 : rest.Nodup := (List.nodup_cons.mp hnd).2
    rw [List.foldl_cons]
    by_cases hs : sym = s
    · subst hs
      rw [mnav_fold_untouched tab pkey nkey sh d rest _ sym hnds]
      cases hc : mnav_cell tab (pkey sym) (nkey sym) (sh sym) d sym with
      | none => simp [hc]
      | some v => simp [hc, ArtCoin.rowGet_rowSet_self]
    · have hmem2 : sym ∈ rest := by
        cases List.mem_cons.mp hmem with
        | inl h => exact absurd h hs
        | inr h => exact h
      rw [ih _ hnd2 hmem2]
      cases hc : mnav_cell tab (pkey sym) (nkey sym) (sh sym) d sym with
      | some v => rfl
      | none =>
        cases hc2 : mnav_cell tab (pkey s) (nkey s) (sh s) d s with
        | none => rfl
        | some w => exact ArtCoin.rowGet_rowSet_ne row s sym w (fun hc3 => hs hc3.symm)

/-- The sym-binding of a finished mNAV row for one date. -/
theorem mnav_row_get (tab : Table) (syms : List String) (pkey nkey : String → Option String)
    (sh : String → Option ℚ) (d : Nat) (sym : String)
    (hnd : syms.Nodup) (hmem : sym ∈ syms) :
    ArtCoin.rowGet (mnav_row tab syms pkey nkey sh d) sym =
      mnav_cell tab (pkey sym) (nkey sym) (sh sym) d sym := by
  unfold mnav_row
  rw [mnav_fold_get tab pkey nkey sh d syms [] sym hnd hmem]
  cases mnav_cell tab (pkey sym) (nkey sym) (sh sym) d sym with
  | none => rfl
  | some v => rfl

end ArtDat

namespace Augment

/-- A pandas float cell of augment_dat_with_mnav.py: `nan` marks a
missing value (`to_num` yields NaN for blanks and unparsable text), and
the infinities arise from IEEE division by zero.  Finite values are kept
exact as rationals; signed zero is not modelled (the scraped data are
ordinary decimal literals). -/
inductive PVal where
  | num (q : ℚ)
  | pinf
  | ninf
  | nan
deriving DecidableEq

/-- pandas `notna`: everything except NaN. -/
def notna : PVal → Bool
  | .nan => false
  | _ => true

/-- IEEE multiplication as performed elementwise by `price * shares`. -/
def pmul : PVal → PVal → PVal
  | .nan, _ => .nan
  | _, .nan => .nan
  | .num a, .num b => .num (a * b)
  | .num a, .pinf => if a = 0 then .nan else if 0 < a then .pinf else .ninf
  | .num a, .ninf => if a = 0 then .nan else if 0 < a then .ninf else .pinf
  | .pinf, .num b => if b = 0 then .nan else if 0 < b then .pinf else .ninf
  | .ninf, .num b => if b = 0 then .nan else if 0 < b then .ninf else .pinf
  | .pinf, .pinf => .pinf
  | .pinf, .ninf => .ninf
  | .ninf, .pinf => .ninf
  | .ninf, .ninf => .pinf

/-- IEEE division as performed elementwise by `... / nav`: a nonzero
finite value divided by (positive) zero gives an infinity, `0/0` gives
NaN. -/
def pdiv : PVal → PVal → PVal
  | .nan, _ => .nan
  | _, .nan => .nan
  | .num a, .num b =>
    if b = 0 then (if a = 0 then .nan else if 0 < a then .pinf else .ninf)
    else .num (a / b)
  | .num _, .pinf => .num 0
  | .num _, .ninf => .num 0
  | .pinf, .num b => if 0 ≤ b then .pinf else .ninf
  | .ninf, .num b => if 0 ≤ b then .ninf else .pinf
  | .pinf, .pinf => .nan
  | .pinf, .ninf => .nan
  | .ninf, .pinf => .nan
  | .ninf, .ninf => .nan

/-- augment_dat_with_mnav.py: `mnav = (price * shares) / nav` for one
date and ticker (no forward-fill of shares in this script). -/
def mnav (price shares nav : PVal) : PVal :=
  pdiv (pmul price shares) nav

/-- A cell of the recomputed mnav block is written to the output CSV iff
`pd.notna(row[t])` holds (augment_dat_with_mnav.py line building
`out_rows`). -/
def stored (price shares nav : PVal) : Bool :=
  notna (mnav price shares nav)

end Augment

/-- C6 counterexample: in the augment_dat_with_mnav.py recomputation of
the ratio metric, a present, zero nav with present price 100 and present
shares 10 yields +infinity, which passes the `notna` storage filter and
is written — the derived cell is not omitted, contradicting the claim
that a zero denominator always leads to omission. -/
theorem C6_zero_nav_cex :
    Augment.mnav (Augment.PVal.num 100) (Augment.PVal.num 10) (Augment.PVal.num 0) =
        Augment.PVal.pinf ∧
      Augment.stored (Augment.PVal.num 100) (Augment.PVal.num 10) (Augment.PVal.num 0) =
        true := by
  constructor
  · show Augment.pdiv (Augment.pmul _ _) _ = _
    norm_num [Augment.pmul, Augment.pdiv]
  · show Augment.notna (Augment.pdiv (Augment.pmul _ _) _) = _
    norm_num [Augment.pmul, Augment.pdiv, Augment.notna]

/-- C6 amended: in the main derivation (art_dat.main) the claim holds as
stated: the derived cell is `some v` exactly when the point-exact price
is present, a forward-filled shares value exists, and nav is present and
non-zero, with `v = price * shares / nav`; a zero or absent nav omits
the cell; and the per-date row stores exactly these cells.  (Only the
auxiliary augment_dat_with_mnav.py recomputation, which also does not
forward-fill shares, lacks the zero-nav guard, per the counterexample.)
-/
theorem C6_mnav_guard_amended (tab : ArtDat.Table) (d : Nat) (sym : String) :
    (∀ pkey nkey shares v,
      ArtDat.mnav_cell tab pkey nkey shares d sym = some v ↔
        ∃ p sh nv, ArtDat.get_cell tab d pkey sym = some p ∧ shares = some sh ∧
          ArtDat.get_cell tab d nkey sym = some nv ∧ nv ≠ 0 ∧ v = (p * sh) / nv) ∧
    (∀ pkey nkey shares,
      (ArtDat.get_cell tab d nkey sym = some 0 ∨ ArtDat.get_cell tab d nkey sym = none) →
        ArtDat.mnav_cell tab pkey nkey shares d sym = none) ∧
    (∀ (syms : List String) (pkey nkey : String → Option String) (sh : String → Option ℚ),
      syms.Nodup → sym ∈ syms →
        ArtCoin.rowGet (ArtDat.mnav_row tab syms pkey nkey sh d) sym =
          ArtDat.mnav_cell tab (pkey sym) (nkey sym) (sh sym) d sym) := by
  refine ⟨?_, ?_, ?_⟩
  · intro pkey nkey shares v
    cases hp : ArtDat.get_cell tab d pkey sym with
    | none => simp [ArtDat.mnav_cell, hp]
    | some p =>
      cases shares with
      | none => simp [ArtDat.mnav_cell, hp]
      | some sh =>
        cases hn : ArtDat.get_cell tab d nkey sym with
        | none => simp [ArtDat.mnav_cell, hp, hn]
        | some nv =>
          by_cases hz : nv = 0
          · simp [ArtDat.mnav_cell, hp, hn, hz]
          · simp only [ArtDat.mnav_cell, hp, hn, if_neg hz, Option.some.injEq]
            constructor
            · intro h
              exact ⟨p, sh, nv, rfl, rfl, rfl, hz, h.symm⟩
            · rintro ⟨p2, sh2, nv2, hp2, hsh2, hn2, hz2, hv2⟩
              subst hp2
              subst hsh2
              subst hn2
              exact hv2.symm
  · rintro pkey nkey shares (h | h) <;>
      cases hp : ArtDat.get_cell tab d pkey sym <;>
      cases shares <;>
      simp [ArtDat.mnav_cell, hp, h]
  · intro syms pkey nkey sh hnd hmem
    exact ArtDat.mnav_row_get tab syms pkey nkey sh d sym hnd hmem

/-- Witness for the amended C6 theorem, realizing the spec scenario:
price 100, forward-filled shares 1000000, nav 50000000 at one date give
a stored mNAV of 2. -/
theorem C6_mnav_guard_amended_witness :
    ArtDat.mnav_cell
        [((3, "PRICE"), [("EQ-MSTR", (100 : ℚ))]),
         ((3, "NAV"), [("EQ-MSTR", (50000000 : ℚ))])]
        (some "PRICE") (some "NAV") (some (1000000 : ℚ)) 3 "EQ-MSTR" = some 2 :=
  ((C6_mnav_guard_amended
      [((3, "PRICE"), [("EQ-MSTR", (100 : ℚ))]),
       ((3, "NAV"), [("EQ-MSTR", (50000000 : ℚ))])] 3 "EQ-MSTR").1
    (some "PRICE") (some "NAV") (some (1000000 : ℚ)) 2).mpr
    ⟨100, 1000000, 50000000, by decide, rfl, by decide, by norm_num, by norm_num⟩

namespace FsEtf

/-- The file-system operations the scripts perform when persisting an
artifact.  `openWrite p` is opening path `p` for writing (`open("w")`,
`write_text`, or creating a named temporary file and writing it);
`fsyncFile p` is flushing and fsyncing `p`; `replaceFile src dst` is the
atomic `Path.replace` rename. -/
inductive FsOp where
  | openWrite (p : String)
  | fsyncFile (p : String)
  | replaceFile (src dst : String)
deriving DecidableEq

/-- fs_etf.atomic_write_csv: write the frame to a named temporary file
`tmp` in the destination directory, flush and fsync it, then atomically
rename it onto `dest`. -/
def atomic_write_csv_trace (dest tmp : String) : List FsOp :=
  [FsOp.openWrite tmp, FsOp.fsyncFile tmp, FsOp.replaceFile tmp dest]

/-- Does a trace ever open the destination itself for writing? -/
def writesDirectly (dest : String) (tr : List FsOp) : Bool :=
  tr.any (fun op =>
    match op with
    | FsOp.openWrite p => p = dest
    | _ => false)

end FsEtf

namespace ArtCoin

/-- art_coin.write_table: `with path.open("w", newline="") as f` — the
destination CSV itself is opened for writing, with no temporary file and
no rename. -/
def write_table_trace (dest : String) : List FsEtf.FsOp :=
  [FsEtf.FsOp.openWrite dest]

end ArtCoin

namespace ArtDat

/-- art_dat.write_table: `with path.open("w", newline="") as f` — direct
write to the destination CSV. -/
def write_table_trace (dest : String) : List FsEtf.FsOp :=
  [FsEtf.FsOp.openWrite dest]

/-- art_dat.main: `MAP_PATH.write_text(json.dumps(mapping, indent=2))` —
direct write to the key-mapping JSON. -/
def map_write_trace (dest : String) : List FsEtf.FsOp :=
  [FsEtf.FsOp.openWrite dest]

end ArtDat

/-- C4 counterexample: the main table writers and the key-mapping writer
open their destination file directly — the destination is written
directly and a failure mid-write leaves a partial file visible,
contradicting the claim that every table/mapping write goes through a
temporary file with atomic rename. -/
theorem C4_atomic_persistence_cex :
    FsEtf.writesDirectly "docs/data/token_data.csv"
        (ArtCoin.write_table_trace "docs/data/token_data.csv") = true ∧
      FsEtf.writesDirectly "docs/data/dat_data.csv"
        (ArtDat.write_table_trace "docs/data/dat_data.csv") = true ∧
      FsEtf.writesDirectly "docs/data/dat_data_mapping.json"
        (ArtDat.map_write_trace "docs/data/dat_data_mapping.json") = true := by
  refine ⟨by decide, by decide, by decide⟩

/-- C4 amended: only the scraped-ETF outputs are written atomically.
`atomic_write_csv` never opens the destination directly (given the
temporary name differs from the destination) and ends with the atomic
rename of the temporary onto the destination, while the art_coin and
art_dat table writers and the mapping writer open the destination
directly. -/
theorem C4_atomic_persistence_amended (dest tmp : String) (h : tmp ≠ dest) :
    FsEtf.writesDirectly dest (FsEtf.atomic_write_csv_trace dest tmp) = false ∧
    (FsEtf.atomic_write_csv_trace dest tmp).getLast? =
      some (FsEtf.FsOp.replaceFile tmp dest) ∧
    FsEtf.writesDirectly dest (ArtCoin.write_table_trace dest) = true ∧
    FsEtf.writesDirectly dest (ArtDat.write_table_trace dest) = true ∧
    FsEtf.writesDirectly dest (ArtDat.map_write_trace dest) = true := by
  refine ⟨?_, rfl, ?_, ?_, ?_⟩
  · simp [FsEtf.writesDirectly, FsEtf.atomic_write_csv_trace, h]
  · simp [FsEtf.writesDirectly, ArtCoin.write_table_trace]
  · simp [FsEtf.writesDirectly, ArtDat.write_table_trace]
  · simp [FsEtf.writesDirectly, ArtDat.map_write_trace]

/-- Witness for the amended C4 theorem at concrete paths. -/
theorem C4_atomic_persistence_amended_witness :
    FsEtf.writesDirectly "docs/data/etf_data.csv"
        (FsEtf.atomic_write_csv_trace "docs/data/etf_data.csv" "docs/data/tmp123.tmp") =
      false :=
  (C4_atomic_persistence_amended "docs/data/etf_data.csv" "docs/data/tmp123.tmp"
    (by decide)).1

namespace FsEtf

/-- Lookup of a row by date in a date-indexed frame (`set_index("date")`
followed by label lookup).  pandas requires unique labels for `reindex`;
the scraped daily tables have one row per date. -/
def dlookup {β : Type} (rows : List (Nat × β)) (d : Nat) : Option β :=
  (rows.find? (fun r => r.1 = d)).map (fun r => r.2)

/-- fs_etf.daily_frame: reindex the `(date, total)` frame over the full
calendar range `[min date, max date]` with `fillna(0.0)`; dates are days
since 1970-01-01 (`pd.date_range(..., freq="D")` steps one day). -/
def daily_frame (pairs : List (Nat × ℚ)) : List (Nat × ℚ) :=
  match (pairs.map (fun p => p.1)).min?, (pairs.map (fun p => p.1)).max? with
  | some mn, some mx =>
    (List.range' mn (mx - mn + 1)).map (fun d => (d, (dlookup pairs d).getD 0))
  | _, _ => []

/-- pandas `.round(1)` on one value (one decimal digit). -/
def roundTo1 (q : ℚ) : ℚ :=
  ((round (q * 10) : ℤ) : ℚ) / 10

/-- The combine step of fs_etf.build_and_write: reindex both daily
frames over the union calendar range (from the overall earliest to the
overall latest date), filling 0.0, and pair the BTC and ETH totals per
date. -/
def etf_combined (btc eth : List (Nat × ℚ)) : List (Nat × ℚ × ℚ) :=
  match ((daily_frame btc).map (fun p => p.1) ++ (daily_frame eth).map (fun p => p.1)).min?,
      ((daily_frame btc).map (fun p => p.1) ++ (daily_frame eth).map (fun p => p.1)).max? with
  | some a, some b =>
    (List.range' a (b - a + 1)).map
      (fun d => (d, (dlookup (daily_frame btc) d).getD 0, (dlookup (daily_frame eth) d).getD 0))
  | _, _ => []

/-- The daily rows of fs_etf's output (the rows later tagged with metric
"etf_net_flow_usd_millions"), after the `.round(1)` display rounding;
the cumulative rows are derived from these by a running sum. -/
def etf_daily_out (btc eth : List (Nat × ℚ)) : List (Nat × ℚ × ℚ) :=
  (etf_combined btc eth).map (fun r => (r.1, roundTo1 r.2.1, roundTo1 r.2.2))

theorem min?_mem_le (l : List Nat) (a : Nat) (h : l.min? = some a) :
    a ∈ l ∧ ∀ x ∈ l, a ≤ x := by
  rw [List.min?_eq_some_iff] at h
  · exact h
  · omega
  · intro a b
    omega
  · intro a b c
    omega

theorem max?_mem_ge (l : List Nat) (b : Nat) (h : l.max? = some b) :
    b ∈ l ∧ ∀ x ∈ l, x ≤ b := by
  rw [List.max?_eq_some_iff] at h
  · exact h
  · omega
  · intro a b
    omega
  · intro a b c
    omega

/-- Looking a date up in the graph of a function over a date list. -/
theorem dlookup_map_graph {β : Type} (l : List Nat) (g : Nat → β) (d : Nat) :
    dlookup (l.map (fun x => (x, g x))) d = if d ∈ l then some (g d) else none := by
  induction l with
  | nil => simp [dlookup]
  | cons x xs ih =>
    by_cases hx : x = d
    · subst hx
      unfold dlookup
      rw [List.map_cons, List.find?_cons_of_pos _ (by simp)]
      simp
    · unfold dlookup at ih ⊢
      rw [List.map_cons, List.find?_cons_of_neg _ (by simp [hx]), ih]
      simp [List.mem_cons, Ne.symm hx]

/-- Reading any date through a reindexed daily frame with `getD 0` gives
the same as reading the raw pairs with `getD 0`: inside the range the
stored value is the filled one, outside the range the raw frame has no
row either. -/
theorem dlookup_daily_frame (pairs : List (Nat × ℚ)) (d : Nat) :
    (dlookup (daily_frame pairs) d).getD 0 = (dlookup pairs d).getD 0 := by
  unfold daily_frame
  cases hmin : (pairs.map (fun p => p.1)).min? with
  | none =>
    have hnil : pairs = [] := by
      have := List.min?_eq_none_iff.mp hmin
      exact List.map_eq_nil_iff.mp this
    subst hnil
    simp [dlookup]
  | some mn =>
    cases hmax : (pairs.map (fun p => p.1)).max? with
    | none =>
      exfalso
      have := List.max?_eq_none_iff.mp hmax
      rw [this] at hmin
      cases hmin
    | some mx =>
      rw [dlookup_map_graph]
      by_cases hd : d ∈ List.range' mn (mx - mn + 1)
      · simp [hd]
      · have hnone : dlookup pairs d = none := by
          unfold dlookup
          rw [show (pairs.find? (fun r => r.1 = d)) = none from ?_]
          · rfl
          rw [List.find?_eq_none]
          intro p hp
          have hmem : p.1 ∈ pairs.map (fun p => p.1) := List.mem_map_of_mem _ hp
          have h1 : mn ≤ p.1 := (min?_mem_le _ mn hmin).2 _ hmem
          have h2 : p.1 ≤ mx := (max?_mem_ge _ mx hmax).2 _ hmem
          rw [List.mem_range'_1] at hd
          simp only [decide_eq_true_eq]
          intro hpd
          exact hd (by omega)
        simp [hd, hnone]

end FsEtf

/-- C10: the scraped ETF output is dense with zeros.  For the daily
net-flow rows: a date has a row exactly when it lies between the overall
earliest and latest scraped date (across both assets), and each row
carries, per asset, the rounded scraped value — in particular `0.0`
(since `roundTo1 0 = 0`) whenever that asset has no scraped flow on that
day, instead of preserving absence as the sparse main table does. -/
theorem C10_etf_densification (btc eth : List (Nat × ℚ)) (a b : Nat)
    (_hnb : (btc.map (fun p => p.1)).Nodup) (_hne : (eth.map (fun p => p.1)).Nodup)
    (ha : ((FsEtf.daily_frame btc).map (fun p => p.1) ++
        (FsEtf.daily_frame eth).map (fun p => p.1)).min? = some a)
    (hb : ((FsEtf.daily_frame btc).map (fun p => p.1) ++
        (FsEtf.daily_frame eth).map (fun p => p.1)).max? = some b) :
    (∀ d, FsEtf.dlookup (FsEtf.etf_daily_out btc eth) d =
      if a ≤ d ∧ d ≤ b then
        some (FsEtf.roundTo1 ((FsEtf.dlookup btc d).getD 0),
          FsEtf.roundTo1 ((FsEtf.dlookup eth d).getD 0))
      else none) ∧
    FsEtf.roundTo1 0 = 0 := by
  have hab : a ≤ b :=
    (FsEtf.max?_mem_ge _ b hb).2 a (FsEtf.min?_mem_le _ a ha).1
  constructor
  · intro d
    unfold FsEtf.etf_daily_out FsEtf.etf_combined
    rw [ha, hb]
    rw [List.map_map]
    rw [show ((fun (r : Nat × ℚ × ℚ) => (r.1, FsEtf.roundTo1 r.2.1, FsEtf.roundTo1 r.2.2)) ∘
        (fun d => (d, (FsEtf.dlookup (FsEtf.daily_frame btc) d).getD 0,
          (FsEtf.dlookup (FsEtf.daily_frame eth) d).getD 0))) =
      (fun x => (x, FsEtf.roundTo1 ((FsEtf.dlookup (FsEtf.daily_frame btc) x).getD 0),
        FsEtf.roundTo1 ((FsEtf.dlookup (FsEtf.daily_frame eth) x).getD 0))) from rfl]
    rw [FsEtf.dlookup_map_graph]
    simp only [FsEtf.dlookup_daily_frame]
    by_cases hcond : a ≤ d ∧ d ≤ b
    · rw [if_pos (List.mem_range'_1.mpr (by omega)), if_pos hcond]
    · rw [if_neg (fun hc => hcond (by
        have := List.mem_range'_1.mp hc
        omega)), if_neg hcond]
  · unfold FsEtf.roundTo1
    norm_num

/-- Witness for C10: BTC scraped only on day 0 and ETH only on day 2;
the output covers days 0, 1, 2 and day 1 (scraped by neither) carries
explicit zero flows for both assets. -/
theorem C10_etf_densification_witness :
    FsEtf.dlookup (FsEtf.etf_daily_out [(0, (5 : ℚ))] [(2, (7 : ℚ))]) 1 =
      some (0, 0) := by
  have h := (C10_etf_densification [(0, (5 : ℚ))] [(2, (7 : ℚ))] 0 2
    (by decide) (by decide) (by decide) (by decide)).1 1
  rw [h, if_pos (by omega)]
  norm_num [FsEtf.dlookup, List.find?, FsEtf.roundTo1]

namespace ArtCoin

/-- The decimal digit character for `d < 10` (code point 48 + d). -/
def digitChar (d : Nat) : Char := Char.ofNat (48 + d)

/-- Reading one character as a decimal digit, as Python's `float`
lexer does. -/
def digitOfChar (c : Char) : Option Nat :=
  if '0' ≤ c ∧ c ≤ '9' then some (c.toNat - 48) else none

/-- Little-endian decimal digits of `n` (empty for 0), with explicit
fuel so that the recursion is structural. -/
def natDigitsRev (fuel n : Nat) : List Nat :=
  match fuel with
  | 0 => []
  | f + 1 => if n = 0 then [] else n % 10 :: natDigitsRev f (n / 10)

/-- The decimal digit characters of `n`, most significant first, as
`"%d"` formatting produces them. -/
def digitsChars (n : Nat) : List Char :=
  if n = 0 then ['0'] else (natDigitsRev (n + 1) n).reverse.map digitChar

/-- Value of a little-endian decimal digit list. -/
def digitsVal (ds : List Nat) : Nat :=
  ds.foldr (fun d acc => d + 10 * acc) 0

/-- Parse a non-empty all-digit character list, most significant first
(the integer or fraction field of a Python float literal). -/
def parseNatChars (l : List Char) : Option Nat :=
  if l.isEmpty then none
  else
    l.foldl
      (fun acc c =>
        match acc, digitOfChar c with
        | some a, some d => some (10 * a + d)
        | _, _ => none)
      (some 0)

theorem digitsVal_natDigitsRev (fuel : Nat) :
    ∀ n, n < fuel → digitsVal (natDigitsRev fuel n) = n := by
  induction fuel with
  | zero => intro n hn; omega
  | succ f ih =>
    intro n hn
    unfold natDigitsRev
    by_cases h0 : n = 0
    · simp [h0, digitsVal]
    · rw [if_neg h0]
      have hlt : n / 10 < f := by
        have := Nat.div_lt_self (Nat.pos_of_ne_zero h0) (by omega : 1 < 10)
        omega
      simp only [digitsVal, List.foldr_cons]
      have := ih (n / 10) hlt
      unfold digitsVal at this
      rw [this]
      omega

theorem natDigitsRev_lt (fuel : Nat) :
    ∀ n, ∀ d ∈ natDigitsRev fuel n, d < 10 := by
  induction fuel with
  | zero => intro n d hd; cases hd
  | succ f ih =>
    intro n d hd
    unfold natDigitsRev at hd
    by_cases h0 : n = 0
    · rw [if_pos h0] at hd; cases hd
    · rw [if_neg h0] at hd
      cases List.mem_cons.mp hd with
      | inl h => subst h; exact Nat.mod_lt _ (by omega)
      | inr h => exact ih (n / 10) d h

theorem natDigitsRev_length (fuel : Nat) :
    ∀ k n, n < 10 ^ k → (natDigitsRev fuel n).length ≤ k := by
  induction fuel with
  | zero => intro k n _; simp [natDigitsRev]
  | succ f ih =>
    intro k n hn
    unfold natDigitsRev
    by_cases h0 : n = 0
    · simp [h0]
    · rw [if_neg h0]
      have hk : k ≠ 0 := by
        intro hc
        rw [hc, pow_zero] at hn
        omega
      have hdiv : n / 10 < 10 ^ (k - 1) := by
        rw [Nat.div_lt_iff_lt_mul (by omega : 0 < 10)]
        calc n < 10 ^ k := hn
        _ = 10 ^ (k - 1) * 10 := by
              rw [← pow_succ]
              congr 1
              omega
      have := ih (k - 1) (n / 10) hdiv
      simp only [List.length_cons]
      omega

theorem digitOfChar_digitChar (d : Nat) (hd : d < 10) :
    digitOfChar (digitChar d) = some d := by
  interval_cases d <;> decide

theorem digitChar_ne (d : Nat) (hd : d < 10) :
    digitChar d ≠ '.' ∧ digitChar d ≠ '-' := by
  interval_cases d <;> exact ⟨by decide, by decide⟩

theorem digitsChars_ne_nil (n : Nat) : digitsChars n ≠ [] := by
  unfold digitsChars
  by_cases h0 : n = 0
  · simp [h0]
  · rw [if_neg h0]
    intro hc
    rw [List.map_eq_nil_iff, List.reverse_eq_nil_iff] at hc
    unfold natDigitsRev at hc
    rw [if_neg h0] at hc
    cases hc

theorem digitsChars_digits (n : Nat) : ∀ c ∈ digitsChars n, c ≠ '.' ∧ c ≠ '-' := by
  intro c hc
  unfold digitsChars at hc
  by_cases h0 : n = 0
  · rw [if_pos h0] at hc
    rcases List.mem_singleton.mp hc with rfl
    exact ⟨by decide, by decide⟩
  · rw [if_neg h0] at hc
    obtain ⟨d, hd, rfl⟩ := List.mem_map.mp hc
    exact digitChar_ne d (natDigitsRev_lt _ _ d (List.mem_reverse.mp hd))

end ArtCoin

namespace ArtCoin

theorem parse_foldl_digits (ds : List Nat) (hds : ∀ d ∈ ds, d < 10) :
    ∀ a : Nat,
      (ds.map digitChar).foldl
        (fun acc c =>
          match acc, digitOfChar c with
          | some a2, some d => some (10 * a2 + d)
          | _, _ => none)
        (some a) =
      some (ds.foldl (fun x d => 10 * x + d) a) := by
  induction ds with
  | nil => intro a; rfl
  | cons d rest ih =>
    intro a
    have hd : d < 10 := hds d (List.mem_cons_self _ _)
    simp only [List.map_cons, List.foldl_cons, digitOfChar_digitChar d hd]
    exact ih (fun x hx => hds x (List.mem_cons_of_mem _ hx)) (10 * a + d)

theorem foldl_reverse_digitsVal (ds : List Nat) :
    ds.reverse.foldl (fun x d => 10 * x + d) 0 = digitsVal ds := by
  induction ds with
  | nil => rfl
  | cons d rest ih =>
    rw [List.reverse_cons, List.foldl_append, ih]
    simp only [List.foldl_cons, List.foldl_nil, digitsVal, List.foldr_cons]
    omega

theorem parseNatChars_digitsChars (n : Nat) : parseNatChars (digitsChars n) = some n := by
  by_cases h0 : n = 0
  · subst h0; decide
  · unfold parseNatChars
    rw [if_neg (by simpa using digitsChars_ne_nil n)]
    unfold digitsChars
    rw [if_neg h0]
    rw [parse_foldl_digits _ (fun d hd => natDigitsRev_lt _ _ d (List.mem_reverse.mp hd)) 0]
    rw [foldl_reverse_digitsVal, digitsVal_natDigitsRev (n + 1) n (by omega)]

theorem parse_foldl_zeros (k : Nat) (l : List Char) :
    (List.replicate k '0' ++ l).foldl
      (fun acc c =>
        match acc, digitOfChar c with
        | some a2, some d => some (10 * a2 + d)
        | _, _ => none)
      (some 0) =
    l.foldl
      (fun acc c =>
        match acc, digitOfChar c with
        | some a2, some d => some (10 * a2 + d)
        | _, _ => none)
      (some 0) := by
  induction k with
  | zero => rfl
  | succ j ih =>
    rw [List.replicate_succ, List.cons_append, List.foldl_cons]
    exact ih

theorem parseNatChars_padded (k : Nat) (m : Nat) :
    parseNatChars (List.replicate k '0' ++ digitsChars m) = some m := by
  unfold parseNatChars
  rw [if_neg (by simp [digitsChars_ne_nil m])]
  rw [parse_foldl_zeros]
  have h := parseNatChars_digitsChars m
  unfold parseNatChars at h
  rw [if_neg (by simpa using digitsChars_ne_nil m)] at h
  exact h

end ArtCoin

namespace ArtCoin

/-- The character list printed by Python's `f"{v:.10f}"` for the float
(here: exact rational) `v`: optional sign, the integer digits, a dot,
and exactly ten fraction digits of the value rounded to a multiple of
`10 ^ (-10)`. -/
def formatFixed10Chars (v : ℚ) : List Char :=
  (if round (v * 10 ^ 10) < 0 then ['-'] else []) ++
    digitsChars ((round (v * 10 ^ 10)).natAbs / 10 ^ 10) ++
    '.' :: (List.replicate
        (10 - (digitsChars ((round (v * 10 ^ 10)).natAbs % 10 ^ 10)).length) '0' ++
      digitsChars ((round (v * 10 ^ 10)).natAbs % 10 ^ 10))

/-- Parse an unsigned decimal literal `digits[.digits]`, as Python's
`float` reads the strings this writer produces. -/
def parseUnsignedChars (l : List Char) : Option ℚ :=
  match l.dropWhile (fun c => c ≠ '.') with
  | [] => (parseNatChars l).map (fun n => (n : ℚ))
  | _ :: frac =>
    match parseNatChars (l.takeWhile (fun c => c ≠ '.')), parseNatChars frac with
    | some ip, some fp => some ((ip : ℚ) + (fp : ℚ) / (10 : ℚ) ^ frac.length)
    | _, _ => none

/-- Parse an optionally signed decimal literal. -/
def parseFloatChars (l : List Char) : Option ℚ :=
  if l.head? = some '-' then (parseUnsignedChars (l.drop 1)).map (fun q => -q)
  else parseUnsignedChars l

theorem takeWhile_append_all {p : Char → Bool} (xs ys : List Char)
    (h : ∀ c ∈ xs, p c = true) :
    (xs ++ ys).takeWhile p = xs ++ ys.takeWhile p := by
  induction xs with
  | nil => rfl
  | cons x rest ih =>
    rw [List.cons_append, List.takeWhile_cons, if_pos (h x (List.mem_cons_self _ _))]
    rw [ih (fun c hc => h c (List.mem_cons_of_mem _ hc)), List.cons_append]

theorem dropWhile_append_all {p : Char → Bool} (xs ys : List Char)
    (h : ∀ c ∈ xs, p c = true) :
    (xs ++ ys).dropWhile p = ys.dropWhile p := by
  induction xs with
  | nil => rfl
  | cons x rest ih =>
    rw [List.cons_append, List.dropWhile_cons, if_pos (h x (List.mem_cons_self _ _))]
    exact ih (fun c hc => h c (List.mem_cons_of_mem _ hc))

/-- The unsigned body `digitsChars ip ++ '.' :: fracChars` parses back
to `ip + fp / 10 ^ 10` when `fracChars` is `fp` zero-padded to ten
digits. -/
theorem parseUnsigned_body (ip fp : Nat) (hfp : fp < 10 ^ 10) :
    parseUnsignedChars
        (digitsChars ip ++ '.' ::
          (List.replicate (10 - (digitsChars fp).length) '0' ++ digitsChars fp)) =
      some ((ip : ℚ) + (fp : ℚ) / (10 : ℚ) ^ 10) := by
  have hdigits : ∀ c ∈ digitsChars ip, (fun c => decide (c ≠ '.')) c = true := by
    intro c hc
    simp [(digitsChars_digits ip c hc).1]
  have hfraclen : (List.replicate (10 - (digitsChars fp).length) '0' ++
      digitsChars fp).length = 10 := by
    have hle : (digitsChars fp).length ≤ 10 := by
      unfold digitsChars
      by_cases h0 : fp = 0
      · simp [h0]
      · rw [if_neg h0]
        simp only [List.length_map, List.length_reverse]
        exact natDigitsRev_length _ 10 fp hfp
    simp only [List.length_append, List.length_replicate]
    omega
  unfold parseUnsignedChars
  rw [dropWhile_append_all _ _ hdigits]
  rw [show (('.' :: (List.replicate (10 - (digitsChars fp).length) '0' ++ digitsChars fp)
      : List Char).dropWhile (fun c => c ≠ '.')) =
    '.' :: (List.replicate (10 - (digitsChars fp).length) '0' ++ digitsChars fp) from by
      rw [List.dropWhile_cons]
      simp]
  rw [takeWhile_append_all _ _ hdigits]
  rw [show (('.' :: (List.replicate (10 - (digitsChars fp).length) '0' ++ digitsChars fp)
      : List Char).takeWhile (fun c => c ≠ '.')) = [] from by
      rw [List.takeWhile_cons]
      simp]
  rw [List.append_nil, parseNatChars_digitsChars]
  simp only [parseNatChars_padded, hfraclen]

end ArtCoin

namespace ArtCoin

theorem parseFloatChars_cons_neg (rest : List Char) :
    parseFloatChars ('-' :: rest) = (parseUnsignedChars rest).map (fun q => -q) := by
  unfold parseFloatChars
  simp

theorem parseFloatChars_not_neg (l : List Char) (h : ¬ l.head? = some '-') :
    parseFloatChars l = parseUnsignedChars l := by
  unfold parseFloatChars
  rw [if_neg h]

theorem split_div_mod (a : Nat) :
    ((a / 10 ^ 10 : ℕ) : ℚ) + ((a % 10 ^ 10 : ℕ) : ℚ) / (10 : ℚ) ^ 10 =
      (a : ℚ) / 10 ^ 10 := by
  have hdm : 10 ^ 10 * (a / 10 ^ 10) + a % 10 ^ 10 = a := Nat.div_add_mod a (10 ^ 10)
  have hc : (a : ℚ) = 10 ^ 10 * ((a / 10 ^ 10 : ℕ) : ℚ) + ((a % 10 ^ 10 : ℕ) : ℚ) := by
    exact_mod_cast hdm.symm
  rw [hc]
  field_simp
  ring

/-- Parsing the printed fixed-10 form recovers exactly the quantized
value `round(v * 10^10) / 10^10`. -/
theorem parseFloat_format (v : ℚ) :
    parseFloatChars (formatFixed10Chars v) =
      some (((round (v * 10 ^ 10) : ℤ) : ℚ) / 10 ^ 10) := by
  have hfp : (round (v * 10 ^ 10)).natAbs % 10 ^ 10 < 10 ^ 10 :=
    Nat.mod_lt _ (by norm_num)
  unfold formatFixed10Chars
  by_cases hneg : round (v * 10 ^ 10) < 0
  · rw [if_pos hneg, List.append_assoc, List.singleton_append, parseFloatChars_cons_neg]
    rw [parseUnsigned_body _ _ hfp, split_div_mod]
    have habs : (((round (v * 10 ^ 10)).natAbs : ℕ) : ℚ) =
        -((round (v * 10 ^ 10) : ℤ) : ℚ) := by
      rw [Int.cast_natAbs, Int.cast_abs]
      exact abs_of_neg (by exact_mod_cast hneg)
    rw [Option.map_some', habs]
    congr 1
    ring
  · rw [if_neg hneg, List.nil_append]
    obtain ⟨c, cs, hcc⟩ :=
      List.exists_cons_of_ne_nil (digitsChars_ne_nil ((round (v * 10 ^ 10)).natAbs / 10 ^ 10))
    have hcd : c ≠ '-' :=
      (digitsChars_digits _ c (hcc ▸ List.mem_cons_self c cs)).2
    rw [parseFloatChars_not_neg _ (by
      rw [hcc]
      simp [List.cons_append, hcd])]
    rw [parseUnsigned_body _ _ hfp, split_div_mod]
    have habs : (((round (v * 10 ^ 10)).natAbs : ℕ) : ℚ) =
        ((round (v * 10 ^ 10) : ℤ) : ℚ) := by
      rw [Int.cast_natAbs, Int.cast_abs]
      exact abs_of_nonneg (by exact_mod_cast le_of_not_lt hneg)
    rw [habs]

/-- The quantized value is within `10 ^ (-9)` of the original, since the
0.5-ulp rounding error at the tenth decimal is at most `5 * 10 ^ (-11)`.
-/
theorem quantize_close (v : ℚ) :
    |(((round (v * 10 ^ 10) : ℤ) : ℚ) / 10 ^ 10) - v| ≤ 1 / 10 ^ 9 := by
  have h := abs_sub_round (v * 10 ^ 10)
  rw [abs_sub_comm] at h
  have h2 : |((round (v * 10 ^ 10) : ℤ) : ℚ) / 10 ^ 10 - v| =
      |((round (v * 10 ^ 10) : ℤ) : ℚ) - v * 10 ^ 10| / 10 ^ 10 := by
    rw [show ((round (v * 10 ^ 10) : ℤ) : ℚ) / 10 ^ 10 - v =
        (((round (v * 10 ^ 10) : ℤ) : ℚ) - v * 10 ^ 10) / 10 ^ 10 from by ring]
    rw [abs_div]
    congr 1
  rw [h2]
  calc |((round (v * 10 ^ 10) : ℤ) : ℚ) - v * 10 ^ 10| / 10 ^ 10 ≤ (1 / 2) / 10 ^ 10 := by
        exact (div_le_div_iff_of_pos_right (by norm_num)).mpr h
  _ ≤ 1 / 10 ^ 9 := by norm_num

end ArtCoin

namespace ArtCoin

/-- ASCII uppercasing of one character, as `str.upper` acts on the
ticker strings involved here. -/
def upperChar (c : Char) : Char :=
  if 'a' ≤ c && c ≤ 'z' then Char.ofNat (c.toNat - 32) else c

/-- `str.upper()` on an ASCII string. -/
def upperStr (s : String) : String :=
  String.mk (s.toList.map upperChar)

/-- One output cell of art_coin.write_table:
`"" if v is None else f"{v:.10f}"`. -/
def writeCell (c : Option ℚ) : String :=
  match c with
  | none => ""
  | some v => String.mk (formatFixed10Chars v)

/-- One input cell of art_coin.read_existing_table: blanks and the
literal "NaN" are absent, anything else is parsed as a float (with an
unparsable cell dropped, i.e. absent). -/
def readCell (s : String) : Option ℚ :=
  if s = "" ∨ s = "NaN" then none else parseFloatChars s.toList

theorem dot_mem_format (v : ℚ) : '.' ∈ formatFixed10Chars v := by
  unfold formatFixed10Chars
  rw [List.append_assoc]
  exact List.mem_append.mpr (Or.inr (List.mem_append.mpr (Or.inr (List.mem_cons_self _ _))))

theorem readCell_writeCell_none : readCell (writeCell none) = none := by
  simp [writeCell, readCell]

theorem readCell_writeCell_some (v : ℚ) :
    readCell (writeCell (some v)) =
      some (((round (v * 10 ^ 10) : ℤ) : ℚ) / 10 ^ 10) := by
  unfold writeCell readCell
  rw [if_neg ?hne]
  case hne =>
    rintro (h | h)
    · have := congrArg String.data h
      rw [show (String.mk (formatFixed10Chars v)).data = formatFixed10Chars v from rfl,
        show ("" : String).data = ([] : List Char) from rfl] at this
      exact absurd (this ▸ dot_mem_format v) (List.not_mem_nil '.')
    · have := congrArg String.data h
      rw [show (String.mk (formatFixed10Chars v)).data = formatFixed10Chars v from rfl] at this
      have hdot := dot_mem_format v
      rw [this] at hdot
      exact absurd hdot (by decide)
  exact parseFloat_format v

end ArtCoin

namespace ArtCoin

/-- Code-point lexicographic comparison of char lists, the order Python
`sorted` uses on strings. -/
def charsLe : List Char → List Char → Bool
  | [], _ => true
  | _ :: _, [] => false
  | c :: cs, d :: ds => if c = d then charsLe cs ds else decide (c < d)

/-- String comparison for `sorted(...)`. -/
def strLe (a b : String) : Bool := charsLe a.toList b.toList

/-- The row sort key of art_coin.write_table: date ascending, then the
metric's rank in METRICS (`len(METRICS)` for unknown metrics, which is
what `indexOf` returns), then the metric name alphabetically. -/
def keyLE (metrics : List String) (k1 k2 : Key) : Bool :=
  decide (k1.1 < k2.1) ||
    (decide (k1.1 = k2.1) &&
      (decide (metrics.indexOf k1.2 < metrics.indexOf k2.2) ||
        (decide (metrics.indexOf k1.2 = metrics.indexOf k2.2) && strLe k1.2 k2.2)))

/-- `existing_tokens` of art_coin.write_table: every entity name
appearing in some row (as a list with duplicates; the Python set is the
dedup below). -/
def collect_tokens (tab : Table) : List String :=
  tab.foldl (fun acc kv => acc ++ kv.2.map (fun e => e.1)) []

/-- The output column order of art_coin.write_table: the requested
tokens uppercased, then all other entities found in the table, sorted.
-/
def header_tokens (tab : Table) (tokens : List String) : List String :=
  tokens.map upperStr ++
    List.insertionSort (fun a b => strLe a b = true)
      ((collect_tokens tab).dedup.filter (fun t => t ∉ tokens.map upperStr))

/-- The data rows of art_coin.write_table: table keys sorted by
`(date, metric rank)`, each with one formatted cell per header token. -/
def write_rows (tab : Table) (tokens metrics : List String) : List (Key × List String) :=
  (List.insertionSort (fun k1 k2 => keyLE metrics k1 k2 = true)
      (tab.map (fun kv => kv.1))).map
    (fun k => (k, (header_tokens tab tokens).map
      (fun t => writeCell (rowGet ((tableGet tab k).getD []) t))))

/-- art_coin.write_table: the emitted CSV, as its header entity columns
plus its data rows (the `date` and `metric` cells are the components of
the row key). -/
def write_table (tab : Table) (tokens metrics : List String) :
    List String × List (Key × List String) :=
  (header_tokens tab tokens, write_rows tab tokens metrics)

/-- `row.get(t)` of csv.DictReader: the cell under fieldname `t`, with
the last of duplicate fieldnames winning as in a dict built
left-to-right. -/
def row_cell (fieldnames : List String) (cells : List String) (t : String) : Option String :=
  ((fieldnames.zip cells).filter (fun fc => fc.1 = t)).getLast?.map (fun fc => fc.2)

/-- One step of the per-row loop of art_coin.read_existing_table: a
non-blank, non-"NaN", parsable cell under token column `t` is stored
under the uppercased column name; everything else leaves the row map
unchanged. -/
def read_step (fieldnames cells : List String) (r2 : RowMap) (t : String) : RowMap :=
  match row_cell fieldnames cells t with
  | none => r2
  | some val =>
    match readCell val with
    | some v => rowSet r2 (upperStr t) v
    | none => r2

/-- The per-row loop of art_coin.read_existing_table over the token
columns (the fieldnames other than `date` and `metric`). -/
def read_row_into (fieldnames : List String) (cells : List String) (r : RowMap) : RowMap :=
  (fieldnames.filter (fun c => c ≠ "date" ∧ c ≠ "metric")).foldl (read_step fieldnames cells) r

/-- art_coin.read_existing_table over the emitted rows: rows with a
blank metric are skipped (`if not d or not m: continue`; the date of a
written row is a number and cannot be blank), the rest accumulate into
the table dict. -/
def read_existing_table (fieldnames : List String) (rows : List (Key × List String)) :
    Table :=
  rows.foldl
    (fun tab row =>
      if row.1.2 = "" then tab
      else tableSet tab row.1 (read_row_into fieldnames row.2
        ((tableGet tab row.1).getD [])))
    []

end ArtCoin

namespace ArtCoin

theorem zip_map_graph {β : Type} (l : List String) (g : String → β) :
    l.zip (l.map g) = l.map (fun x => (x, g x)) := by
  induction l with
  | nil => rfl
  | cons x xs ih => simp [List.zip_cons_cons, ih]

theorem filter_graph_not_mem {β : Type} (l : List String) (g : String → β) (t : String)
    (h : t ∉ l) :
    (l.map (fun x => (x, g x))).filter (fun fc => fc.1 = t) = [] := by
  induction l with
  | nil => rfl
  | cons x xs ih =>
    have hx : x ≠ t := fun hc => h (hc ▸ List.mem_cons_self _ _)
    rw [List.map_cons, List.filter_cons_of_neg (by simp [hx])]
    exact ih (fun hc => h (List.mem_cons_of_mem _ hc))

theorem row_cell_not_mem (l : List String) (g : String → String) (t : String)
    (h : t ∉ l) :
    row_cell l (l.map g) t = none := by
  unfold row_cell
  rw [zip_map_graph, filter_graph_not_mem l g t h]
  rfl

theorem row_cell_graph (l : List String) (g : String → String) (t : String)
    (hnd : l.Nodup) (ht : t ∈ l) :
    row_cell l (l.map g) t = some (g t) := by
  unfold row_cell
  rw [zip_map_graph]
  induction l with
  | nil => cases ht
  | cons x xs ih =>
    by_cases hx : x = t
    · subst hx
      have hnot : x ∉ xs := (List.nodup_cons.mp hnd).1
      rw [List.map_cons, List.filter_cons_of_pos (by simp), filter_graph_not_mem xs g x hnot]
      rfl
    · have ht2 : t ∈ xs := by
        cases List.mem_cons.mp ht with
        | inl h => exact absurd h.symm hx
        | inr h => exact h
      rw [List.map_cons, List.filter_cons_of_neg (by simp [hx])]
      exact ih (List.nodup_cons.mp hnd).2 ht2

theorem upperStr_ne_reserved (t : String) (h : upperStr t = t) :
    ¬ t = "date" ∧ ¬ t = "metric" := by
  constructor
  · intro hc
    subst hc
    exact absurd h (by decide)
  · intro hc
    subst hc
    exact absurd h (by decide)

theorem filter_reserved_eq_self (l : List String) (h : ∀ t ∈ l, upperStr t = t) :
    l.filter (fun c => c ≠ "date" ∧ c ≠ "metric") = l := by
  rw [List.filter_eq_self]
  intro t ht
  have := upperStr_ne_reserved t (h t ht)
  simp [this.1, this.2]

theorem mem_collect_fold (tab : Table) :
    ∀ (acc : List String) (x : String),
      x ∈ tab.foldl (fun a kv => a ++ kv.2.map (fun e => e.1)) acc ↔
        x ∈ acc ∨ ∃ kv ∈ tab, ∃ en ∈ kv.2, en.1 = x := by
  induction tab with
  | nil => intro acc x; simp
  | cons hd rest ih =>
    intro acc x
    rw [List.foldl_cons, ih]
    constructor
    · rintro (hacc | hrest)
      · cases List.mem_append.mp hacc with
        | inl h => exact Or.inl h
        | inr h =>
          obtain ⟨en, hen, hx⟩ := List.mem_map.mp h
          exact Or.inr ⟨hd, List.mem_cons_self _ _, en, hen, hx⟩
      · obtain ⟨kv, hkv, hen⟩ := hrest
        exact Or.inr ⟨kv, List.mem_cons_of_mem _ hkv, hen⟩
    · rintro (hacc | ⟨kv, hkv, en, hen, hx⟩)
      · exact Or.inl (List.mem_append.mpr (Or.inl hacc))
      · cases List.mem_cons.mp hkv with
        | inl h =>
          subst h
          exact Or.inl (List.mem_append.mpr (Or.inr (List.mem_map.mpr ⟨en, hen, hx⟩)))
        | inr h => exact Or.inr ⟨kv, h, en, hen, hx⟩

theorem mem_collect_tokens (tab : Table) (kv : Key × RowMap) (en : String × ℚ)
    (hkv : kv ∈ tab) (hen : en ∈ kv.2) : en.1 ∈ collect_tokens tab :=
  (mem_collect_fold tab [] en.1).mpr (Or.inr ⟨kv, hkv, en, hen, rfl⟩)

theorem tableGet_eq_none_iff (tab : Table) (k : Key) :
    tableGet tab k = none ↔ k ∉ tab.map (fun kv => kv.1) := by
  induction tab with
  | nil => simp [tableGet]
  | cons hd rest ih =>
    unfold tableGet
    by_cases h : hd.1 = k
    · simp [h]
    · simp only [h, if_false, ih, List.map_cons, List.mem_cons]
      constructor
      · intro hn hc
        cases hc with
        | inl h2 => exact h h2.symm
        | inr h2 => exact hn h2
      · intro hn hc
        exact hn (Or.inr hc)

theorem tableGet_mem (tab : Table) (k : Key) (r : RowMap) (h : tableGet tab k = some r) :
    (k, r) ∈ tab := by
  induction tab with
  | nil => cases h
  | cons hd rest ih =>
    unfold tableGet at h
    by_cases hk : hd.1 = k
    · rw [if_pos hk] at h
      obtain rfl := Option.some_injective _ h
      have he : (k, hd.2) = hd := by rw [← hk]
      rw [he]
      exact List.mem_cons_self _ _
    · rw [if_neg hk] at h
      exact List.mem_cons_of_mem _ (ih h)

end ArtCoin


namespace ArtCoin

theorem read_step_unchanged (fieldnames cells : List String) (r : RowMap) (t e : String)
    (h : upperStr t ≠ e) :
    rowGet (read_step fieldnames cells r t) e = rowGet r e := by
  cases hrc : row_cell fieldnames cells t with
  | none => simp [read_step, hrc]
  | some val =>
    cases hrd : readCell val with
    | none => simp [read_step, hrc, hrd]
    | some v =>
      simp only [read_step, hrc, hrd]
      exact rowGet_rowSet_ne r (upperStr t) e v h

theorem read_fold_untouched (fieldnames cells : List String) (cols : List String)
    (r : RowMap) (e : String) (h : ∀ t ∈ cols, upperStr t ≠ e) :
    rowGet (cols.foldl (read_step fieldnames cells) r) e = rowGet r e := by
  induction cols generalizing r with
  | nil => rfl
  | cons t ts ih =>
    rw [List.foldl_cons, ih _ (fun x hx => h x (List.mem_cons_of_mem _ hx))]
    exact read_step_unchanged fieldnames cells r t e (h t (List.mem_cons_self _ _))

/-- The value stored by one `read_step` at its own (uppercased) column
name, starting from a row with no binding there. -/
theorem read_step_self (fieldnames cells : List String) (r : RowMap) (t : String)
    (hupf : upperStr t = t) :
    rowGet (read_step fieldnames cells r t) t =
      (match row_cell fieldnames cells t with
       | none => rowGet r t
       | some val =>
         match readCell val with
         | some v => some v
         | none => rowGet r t) := by
  cases hrc : row_cell fieldnames cells t with
  | none => simp [read_step, hrc]
  | some val =>
    cases hrd : readCell val with
    | none => simp [read_step, hrc, hrd]
    | some v =>
      simp only [read_step, hrc, hrd]
      rw [hupf]
      exact rowGet_rowSet_self r t v

theorem read_fold_get (fieldnames cells : List String) (cols : List String)
    (r : RowMap) (e : String) (hnd : cols.Nodup)
    (hupf : ∀ t ∈ cols, upperStr t = t) (hmem : e ∈ cols) :
    rowGet (cols.foldl (read_step fieldnames cells) r) e =
      (match row_cell fieldnames cells e with
       | none => rowGet r e
       | some val =>
         match readCell val with
         | some v => some v
         | none => rowGet r e) := by
  induction cols generalizing r with
  | nil => cases hmem
  | cons t ts ih =>
    have hnots : t ∉ ts := (List.nodup_cons.mp hnd).1
    have hnd2 : ts.Nodup := (List.nodup_cons.mp hnd).2
    rw [List.foldl_cons]
    by_cases hte : e = t
    · subst hte
      have huntouched : ∀ x ∈ ts, upperStr x ≠ e := by
        intro x hx
        rw [hupf x (List.mem_cons_of_mem _ hx)]
        intro hc
        exact hnots (hc ▸ hx)
      rw [read_fold_untouched fieldnames cells ts _ e huntouched]
      exact read_step_self fieldnames cells r e (hupf e (List.mem_cons_self _ _))
    · have hmem2 : e ∈ ts := by
        cases List.mem_cons.mp hmem with
        | inl h => exact absurd h hte
        | inr h => exact h
      rw [ih _ hnd2 (fun x hx => hupf x (List.mem_cons_of_mem _ hx)) hmem2]
      have hstep : rowGet (read_step fieldnames cells r t) e = rowGet r e :=
        read_step_unchanged fieldnames cells r t e
          (by rw [hupf t (List.mem_cons_self _ _)]; exact fun hc => hte hc.symm)
      rw [hstep]

/-- Reading one written row: the cell for entity `e` is the re-parsed
written cell when `e` is a header column, absent otherwise. -/
theorem read_row_into_hdr (hdr : List String) (g : String → Option ℚ) (e : String)
    (hnd : hdr.Nodup) (hupf : ∀ t ∈ hdr, upperStr t = t) :
    rowGet (read_row_into hdr (hdr.map (fun t => writeCell (g t))) []) e =
      (if e ∈ hdr then
        (match readCell (writeCell (g e)) with
         | some v => some v
         | none => none)
      else none) := by
  unfold read_row_into
  rw [filter_reserved_eq_self hdr hupf]
  by_cases he : e ∈ hdr
  · rw [read_fold_get hdr _ hdr [] e hnd hupf he, row_cell_graph hdr _ e hnd he, if_pos he]
    cases hrd : readCell (writeCell (g e)) with
    | none => simp [hrd, rowGet]
    | some v => simp [hrd]
  · rw [read_fold_untouched hdr _ hdr [] e
      (fun t ht => by rw [hupf t ht]; exact fun hc => he (hc ▸ ht)), if_neg he]
    rfl

end ArtCoin

namespace ArtCoin

theorem read_table_untouched (fieldnames : List String) (rows : List (Key × List String))
    (acc : Table) (k : Key) (h : k ∉ rows.map (fun row => row.1)) :
    tableGet
      (rows.foldl
        (fun tab row =>
          if row.1.2 = "" then tab
          else tableSet tab row.1 (read_row_into fieldnames row.2
            ((tableGet tab row.1).getD []))) acc) k = tableGet acc k := by
  induction rows generalizing acc with
  | nil => rfl
  | cons row rest ih =>
    have hk : row.1 ≠ k := fun hc => h (List.mem_map.mpr ⟨row, List.mem_cons_self _ _, hc⟩)
    rw [List.foldl_cons, ih _ (fun hc => h (by
      obtain ⟨r2, hr2, he2⟩ := List.mem_map.mp hc
      exact List.mem_map.mpr ⟨r2, List.mem_cons_of_mem _ hr2, he2⟩))]
    by_cases hb : row.1.2 = ""
    · rw [if_pos hb]
    · rw [if_neg hb]
      exact tableGet_tableSet_ne acc _ _ _ hk

theorem read_table_get (fieldnames : List String) (rows : List (Key × List String))
    (acc : Table) (k : Key) (cells : List String)
    (hnd : (rows.map (fun row => row.1)).Nodup)
    (hmet : ∀ row ∈ rows, ¬ row.1.2 = "")
    (hmem : (k, cells) ∈ rows) (hacc : tableGet acc k = none) :
    tableGet
      (rows.foldl
        (fun tab row =>
          if row.1.2 = "" then tab
          else tableSet tab row.1 (read_row_into fieldnames row.2
            ((tableGet tab row.1).getD []))) acc) k =
      some (read_row_into fieldnames cells []) := by
  induction rows generalizing acc with
  | nil => cases hmem
  | cons row rest ih =>
    rw [List.map_cons] at hnd
    have hnots : row.1 ∉ rest.map (fun row => row.1) := (List.nodup_cons.mp hnd).1
    have hnd2 : (rest.map (fun row => row.1)).Nodup := (List.nodup_cons.mp hnd).2
    rw [List.foldl_cons]
    cases List.mem_cons.mp hmem with
    | inl hhead =>
      have hk : row.1 = k := by rw [← hhead]
      have hnotrest : k ∉ rest.map (fun row => row.1) := by
        rw [← hk]
        exact hnots
      rw [if_neg (hmet row (List.mem_cons_self _ _)),
        read_table_untouched fieldnames rest _ k hnotrest, hk, hacc]
      rw [tableGet_tableSet_self]
      have hcells : row.2 = cells := by rw [← hhead]
      rw [hcells]
      rfl
    | inr hrest =>
      have hkrest : k ∈ rest.map (fun row => row.1) :=
        List.mem_map.mpr ⟨(k, cells), hrest, rfl⟩
      have hk : row.1 ≠ k := by
        intro hc
        rw [hc] at hnots
        exact hnots hkrest
      refine ih _ hnd2 (fun r hr => hmet r (List.mem_cons_of_mem _ hr)) hrest ?_
      by_cases hb : row.1.2 = ""
      · rw [if_pos hb]
        exact hacc
      · rw [if_neg hb, tableGet_tableSet_ne acc _ _ _ hk]
        exact hacc

theorem hdr_upper (tab : Table) (tokens : List String)
    (hup : ∀ kv ∈ tab, ∀ en ∈ kv.2, upperStr en.1 = en.1)
    (htok : ∀ t ∈ tokens, upperStr t = t) :
    ∀ t ∈ header_tokens tab tokens, upperStr t = t := by
  intro t ht
  unfold header_tokens at ht
  cases List.mem_append.mp ht with
  | inl h =>
    obtain ⟨x, hx, rfl⟩ := List.mem_map.mp h
    rw [htok x hx, htok x hx]
  | inr h =>
    have hmem : t ∈ (collect_tokens tab).dedup.filter
        (fun t => t ∉ tokens.map upperStr) :=
      (List.perm_insertionSort _ _).mem_iff.mp h
    have hcol : t ∈ collect_tokens tab :=
      List.dedup_subset _ (List.mem_of_mem_filter hmem)
    obtain ⟨kv, hkv, en, hen, rfl⟩ :=
      ((mem_collect_fold tab [] t).mp hcol).resolve_left (by simp)
    exact hup kv hkv en hen

theorem hdr_nodup (tab : Table) (tokens : List String)
    (htokn : (tokens.map upperStr).Nodup) :
    (header_tokens tab tokens).Nodup := by
  unfold header_tokens
  refine List.Nodup.append htokn ?_ ?_
  · exact (List.perm_insertionSort _ _).nodup_iff.mpr
      (List.Nodup.filter _ (List.nodup_dedup _))
  · intro t ht1 ht2
    have hmem : t ∈ (collect_tokens tab).dedup.filter
        (fun t => t ∉ tokens.map upperStr) :=
      (List.perm_insertionSort _ _).mem_iff.mp ht2
    have := List.of_mem_filter hmem
    simp only [decide_not, Bool.not_eq_true', decide_eq_false_iff_not] at this
    exact this ht1

theorem mem_hdr_of_entity (tab : Table) (tokens : List String)
    (kv : Key × RowMap) (en : String × ℚ) (hkv : kv ∈ tab) (hen : en ∈ kv.2) :
    en.1 ∈ header_tokens tab tokens := by
  unfold header_tokens
  by_cases h : en.1 ∈ tokens.map upperStr
  · exact List.mem_append.mpr (Or.inl h)
  · refine List.mem_append.mpr (Or.inr ?_)
    refine (List.perm_insertionSort _ _).mem_iff.mpr ?_
    refine List.mem_filter.mpr ⟨?_, by simpa using h⟩
    exact List.mem_dedup.mpr (mem_collect_tokens tab kv en hkv hen)

end ArtCoin

namespace ArtCoin

theorem rowGet_mem (r : RowMap) (e : String) (v : ℚ) (h : rowGet r e = some v) :
    (e, v) ∈ r := by
  induction r with
  | nil => cases h
  | cons hd rest ih =>
    unfold rowGet at h
    by_cases he : hd.1 = e
    · rw [if_pos he] at h
      obtain rfl := Option.some_injective _ h
      have : (e, hd.2) = hd := by rw [← he]
      rw [this]
      exact List.mem_cons_self _ _
    · rw [if_neg he] at h
      exact List.mem_cons_of_mem _ (ih h)

theorem write_rows_keys (tab : Table) (tokens metrics : List String) :
    (write_rows tab tokens metrics).map (fun row => row.1) =
      List.insertionSort (fun k1 k2 => keyLE metrics k1 k2 = true)
        (tab.map (fun kv => kv.1)) := by
  unfold write_rows
  rw [List.map_map]
  exact List.map_id _

end ArtCoin

/-- C2: table codec round trip.  For every well-formed table (unique
row keys, non-blank metric names, uppercase entity names — the data
model's invariants) and uppercase, duplicate-free requested token list:
writing the table with `write_table` (cells as fixed 10-fraction-digit
decimals, absent cells as empty strings) and reading it back with
`read_existing_table` reproduces every present cell within absolute
tolerance `10 ^ (-9)` and reproduces every absent cell as absent. -/
theorem C2_round_trip (tab : ArtCoin.Table) (tokens metrics : List String)
    (hkeys : (tab.map (fun kv => kv.1)).Nodup)
    (hmet : ∀ kv ∈ tab, ¬ kv.1.2 = "")
    (hup : ∀ kv ∈ tab, ∀ en ∈ kv.2, ArtCoin.upperStr en.1 = en.1)
    (htok : ∀ t ∈ tokens, ArtCoin.upperStr t = t)
    (htokn : (tokens.map ArtCoin.upperStr).Nodup) :
    ∀ d m e,
      (match ArtCoin.lookupCell tab d m e with
       | some v => ∃ w,
           ArtCoin.lookupCell
               (ArtCoin.read_existing_table (ArtCoin.write_table tab tokens metrics).1
                 (ArtCoin.write_table tab tokens metrics).2) d m e = some w ∧
             |w - v| ≤ 1 / 10 ^ 9
       | none =>
           ArtCoin.lookupCell
               (ArtCoin.read_existing_table (ArtCoin.write_table tab tokens metrics).1
                 (ArtCoin.write_table tab tokens metrics).2) d m e = none) := by
  intro d m e
  have hhdrnd := ArtCoin.hdr_nodup tab tokens htokn
  have hhdru := ArtCoin.hdr_upper tab tokens hup htok
  have hrowkeys := ArtCoin.write_rows_keys tab tokens metrics
  have hrowsnd : ((ArtCoin.write_rows tab tokens metrics).map (fun row => row.1)).Nodup := by
    rw [hrowkeys]
    exact (List.perm_insertionSort _ _).nodup_iff.mpr hkeys
  have hrowsmet : ∀ row ∈ ArtCoin.write_rows tab tokens metrics, ¬ row.1.2 = "" := by
    intro row hrow
    have hkmem : row.1 ∈ (ArtCoin.write_rows tab tokens metrics).map (fun r2 => r2.1) :=
      List.mem_map.mpr ⟨row, hrow, rfl⟩
    rw [hrowkeys] at hkmem
    have hkmem2 : row.1 ∈ tab.map (fun kv => kv.1) :=
      (List.perm_insertionSort _ _).mem_iff.mp hkmem
    obtain ⟨kv, hkv, hk⟩ := List.mem_map.mp hkmem2
    rw [← hk]
    exact hmet kv hkv
  cases hget : ArtCoin.tableGet tab (d, m) with
  | none =>
    have hlc : ArtCoin.lookupCell tab d m e = none := by
      unfold ArtCoin.lookupCell
      rw [hget]
    rw [hlc]
    have hnk : (d, m) ∉ (ArtCoin.write_rows tab tokens metrics).map (fun row => row.1) := by
      rw [hrowkeys]
      intro hc
      exact (ArtCoin.tableGet_eq_none_iff tab (d, m)).mp hget
        ((List.perm_insertionSort _ _).mem_iff.mp hc)
    show ArtCoin.lookupCell
        (ArtCoin.read_existing_table (ArtCoin.header_tokens tab tokens)
          (ArtCoin.write_rows tab tokens metrics)) d m e = none
    unfold ArtCoin.lookupCell ArtCoin.read_existing_table
    rw [ArtCoin.read_table_untouched _ _ _ _ hnk]
    rfl
  | some rk =>
    have hkvmem : ((d, m), rk) ∈ tab := ArtCoin.tableGet_mem tab (d, m) rk hget
    have hkmem : ((d, m) : ArtCoin.Key) ∈ tab.map (fun kv => kv.1) :=
      List.mem_map.mpr ⟨((d, m), rk), hkvmem, rfl⟩
    have hrowmem : (((d, m) : ArtCoin.Key),
        (ArtCoin.header_tokens tab tokens).map
          (fun t => ArtCoin.writeCell (ArtCoin.rowGet rk t))) ∈
        ArtCoin.write_rows tab tokens metrics := by
      unfold ArtCoin.write_rows
      refine List.mem_map.mpr ⟨(d, m), (List.perm_insertionSort _ _).mem_iff.mpr hkmem, ?_⟩
      rw [hget]
      rfl
    have hT : ArtCoin.tableGet
        (ArtCoin.read_existing_table (ArtCoin.header_tokens tab tokens)
          (ArtCoin.write_rows tab tokens metrics)) (d, m) =
        some (ArtCoin.read_row_into (ArtCoin.header_tokens tab tokens)
          ((ArtCoin.header_tokens tab tokens).map
            (fun t => ArtCoin.writeCell (ArtCoin.rowGet rk t))) []) := by
      unfold ArtCoin.read_existing_table
      exact ArtCoin.read_table_get _ _ [] (d, m) _ hrowsnd hrowsmet hrowmem rfl
    have hlook : ArtCoin.lookupCell
        (ArtCoin.read_existing_table (ArtCoin.header_tokens tab tokens)
          (ArtCoin.write_rows tab tokens metrics)) d m e =
        ArtCoin.rowGet (ArtCoin.read_row_into (ArtCoin.header_tokens tab tokens)
          ((ArtCoin.header_tokens tab tokens).map
            (fun t => ArtCoin.writeCell (ArtCoin.rowGet rk t))) []) e := by
      unfold ArtCoin.lookupCell
      rw [hT]
    have hrow := ArtCoin.read_row_into_hdr (ArtCoin.header_tokens tab tokens)
      (fun t => ArtCoin.rowGet rk t) e hhdrnd hhdru
    beta_reduce at hrow
    have hlc : ArtCoin.lookupCell tab d m e = ArtCoin.rowGet rk e := by
      unfold ArtCoin.lookupCell
      rw [hget]
    rw [hlc]
    cases hce : ArtCoin.rowGet rk e with
    | none =>
      show ArtCoin.lookupCell
          (ArtCoin.read_existing_table (ArtCoin.header_tokens tab tokens)
            (ArtCoin.write_rows tab tokens metrics)) d m e = none
      rw [hlook, hrow, hce]
      by_cases he : e ∈ ArtCoin.header_tokens tab tokens
      · rw [if_pos he]
        simp [ArtCoin.readCell_writeCell_none]
      · rw [if_neg he]
    | some v =>
      have hemem : e ∈ ArtCoin.header_tokens tab tokens :=
        ArtCoin.mem_hdr_of_entity tab tokens ((d, m), rk) (e, v) hkvmem
          (ArtCoin.rowGet_mem rk e v hce)
      have hfin : ArtCoin.lookupCell
          (ArtCoin.read_existing_table (ArtCoin.header_tokens tab tokens)
            (ArtCoin.write_rows tab tokens metrics)) d m e =
          some (((round (v * 10 ^ 10) : ℤ) : ℚ) / 10 ^ 10) := by
        rw [hlook, hrow, hce, if_pos hemem, ArtCoin.readCell_writeCell_some v]
      exact ⟨((round (v * 10 ^ 10) : ℤ) : ℚ) / 10 ^ 10, hfin, ArtCoin.quantize_close v⟩

/-- Witness for C2, the spec's scenario: a table with
(2024-01-01, price) = @{ETH: 100, BTC: 40000} and
(2024-01-02, price) = @{ETH: 110} (dates as day numbers 0 and 1);
after write + read, BTC's present cell on day 0 is reproduced within
`10 ^ (-9)` and BTC stays absent (not zero) on day 1. -/
theorem C2_round_trip_witness :
    (∃ w,
      ArtCoin.lookupCell
          (ArtCoin.read_existing_table
            (ArtCoin.write_table
              [((0, "price"), [("ETH", (100 : ℚ)), ("BTC", (40000 : ℚ))]),
               ((1, "price"), [("ETH", (110 : ℚ))])] ["ETH", "BTC"] ["price"]).1
            (ArtCoin.write_table
              [((0, "price"), [("ETH", (100 : ℚ)), ("BTC", (40000 : ℚ))]),
               ((1, "price"), [("ETH", (110 : ℚ))])] ["ETH", "BTC"] ["price"]).2)
          0 "price" "BTC" = some w ∧ |w - 40000| ≤ 1 / 10 ^ 9) ∧
    ArtCoin.lookupCell
        (ArtCoin.read_existing_table
          (ArtCoin.write_table
            [((0, "price"), [("ETH", (100 : ℚ)), ("BTC", (40000 : ℚ))]),
             ((1, "price"), [("ETH", (110 : ℚ))])] ["ETH", "BTC"] ["price"]).1
          (ArtCoin.write_table
            [((0, "price"), [("ETH", (100 : ℚ)), ("BTC", (40000 : ℚ))]),
             ((1, "price"), [("ETH", (110 : ℚ))])] ["ETH", "BTC"] ["price"]).2)
        1 "price" "BTC" = none := by
  have h1 := C2_round_trip
    [((0, "price"), [("ETH", (100 : ℚ)), ("BTC", (40000 : ℚ))]),
     ((1, "price"), [("ETH", (110 : ℚ))])] ["ETH", "BTC"] ["price"]
    (by decide) (by decide) (by decide) (by decide) (by decide) 0 "price" "BTC"
  have h2 := C2_round_trip
    [((0, "price"), [("ETH", (100 : ℚ)), ("BTC", (40000 : ℚ))]),
     ((1, "price"), [("ETH", (110 : ℚ))])] ["ETH", "BTC"] ["price"]
    (by decide) (by decide) (by decide) (by decide) (by decide) 1 "price" "BTC"
  rw [show ArtCoin.lookupCell
      [((0, "price"), [("ETH", (100 : ℚ)), ("BTC", (40000 : ℚ))]),
       ((1, "price"), [("ETH", (110 : ℚ))])] 0 "price" "BTC" = some 40000 from rfl] at h1
  rw [show ArtCoin.lookupCell
      [((0, "price"), [("ETH", (100 : ℚ)), ("BTC", (40000 : ℚ))]),
       ((1, "price"), [("ETH", (110 : ℚ))])] 1 "price" "BTC" = none from rfl] at h2
  exact ⟨h1, h2⟩
